import Mathlib

/-!
# Verification of graph-rewriting utilities for a PT2E quantization pipeline

Shallow embedding of `torch/ao/quantization/pt2e/utils.py`: a mutable FX-style
dataflow graph (nodes with op / target / positional args / keyword args),
operand resolution against operator argument schemas, conv + batch-norm
constant folding, overload canonicalization, the dropout match filter, and
literal-to-placeholder promotion. Graph-engine primitives (insertion,
use-replacement, dead-code elimination) and the numeric fusion primitive are
external collaborators of the source module; they are modelled from the
specification's description of the data model.
-/

set_option autoImplicit false

namespace PT2E

/-- Modelled from the spec: operator identities ("targets") appearing in the
module, as a tagged-variant enumeration: the two accepted batch-norm variants,
the convolution operator, tuple-index selection (`operator.getitem`), the nine
overload-suffixed quantize/dequantize/clamp entries of the substitution table
together with their overload-free forms, the four operators of the aten
dropout idiom, string targets (attribute names of `get_attr` nodes and
placeholder names), and a generic operator identified by name whose flag
records whether it declares an argument schema. -/
inductive Target where
  | bn_no_training
  | bn_training
  | convolution
  | getitem
  | q_per_tensor_default
  | q_per_tensor_tensor
  | q_per_tensor_tensor2
  | dq_per_tensor_default
  | dq_per_tensor_tensor
  | dq_per_tensor_tensor2
  | q_per_channel_default
  | dq_per_channel_default
  | clamp_Tensor
  | q_per_tensor
  | dq_per_tensor
  | q_per_channel
  | dq_per_channel
  | clamp
  | empty_like_default
  | bernoulli_float
  | div_Scalar
  | mul_Tensor
  | attr (s : String)
  | opOther (s : String) (hasSchema : Bool)
  deriving DecidableEq

/-- Modelled from the spec: the `op` kind of a graph node. -/
inductive Op where
  | placeholder
  | get_attr
  | call_function
  | output
  deriving DecidableEq

/-- Modelled from the spec: an argument value of a node: a reference to another
node (by node id), a numeric literal, a boolean, a string, `None`, or a nested
tuple/list of values. -/
inductive Value where
  | node (id : Nat)
  | num (n : Int)
  | bool (b : Bool)
  | str (s : String)
  | none
  | tuple (vs : List Value)

mutual

def Value.decEq : (a b : Value) → Decidable (a = b)
  | .node i, .node j =>
    match Nat.decEq i j with
    | isTrue h => isTrue (by rw [h])
    | isFalse h => isFalse (fun hh => h (by cases hh; rfl))
  | .num a, .num b =>
    match Int.decEq a b with
    | isTrue h => isTrue (by rw [h])
    | isFalse h => isFalse (fun hh => h (by cases hh; rfl))
  | .bool a, .bool b =>
    match Bool.decEq a b with
    | isTrue h => isTrue (by rw [h])
    | isFalse h => isFalse (fun hh => h (by cases hh; rfl))
  | .str a, .str b =>
    match String.decEq a b with
    | isTrue h => isTrue (by rw [h])
    | isFalse h => isFalse (fun hh => h (by cases hh; rfl))
  | .none, .none => isTrue rfl
  | .tuple vs, .tuple ws =>
    match Value.decEqList vs ws with
    | isTrue h => isTrue (by rw [h])
    | isFalse h => isFalse (fun hh => h (by cases hh; rfl))
  | .node _, .num _ => isFalse (fun h => Value.noConfusion h)
  | .node _, .bool _ => isFalse (fun h => Value.noConfusion h)
  | .node _, .str _ => isFalse (fun h => Value.noConfusion h)
  | .node _, .none => isFalse (fun h => Value.noConfusion h)
  | .node _, .tuple _ => isFalse (fun h => Value.noConfusion h)
  | .num _, .node _ => isFalse (fun h => Value.noConfusion h)
  | .num _, .bool _ => isFalse (fun h => Value.noConfusion h)
  | .num _, .str _ => isFalse (fun h => Value.noConfusion h)
  | .num _, .none => isFalse (fun h => Value.noConfusion h)
  | .num _, .tuple _ => isFalse (fun h => Value.noConfusion h)
  | .bool _, .node _ => isFalse (fun h => Value.noConfusion h)
  | .bool _, .num _ => isFalse (fun h => Value.noConfusion h)
  | .bool _, .str _ => isFalse (fun h => Value.noConfusion h)
  | .bool _, .none => isFalse (fun h => Value.noConfusion h)
  | .bool _, .tuple _ => isFalse (fun h => Value.noConfusion h)
  | .str _, .node _ => isFalse (fun h => Value.noConfusion h)
  | .str _, .num _ => isFalse (fun h => Value.noConfusion h)
  | .str _, .bool _ => isFalse (fun h => Value.noConfusion h)
  | .str _, .none => isFalse (fun h => Value.noConfusion h)
  | .str _, .tuple _ => isFalse (fun h => Value.noConfusion h)
  | .none, .node _ => isFalse (fun h => Value.noConfusion h)
  | .none, .num _ => isFalse (fun h => Value.noConfusion h)
  | .none, .bool _ => isFalse (fun h => Value.noConfusion h)
  | .none, .str _ => isFalse (fun h => Value.noConfusion h)
  | .none, .tuple _ => isFalse (fun h => Value.noConfusion h)
  | .tuple _, .node _ => isFalse (fun h => Value.noConfusion h)
  | .tuple _, .num _ => isFalse (fun h => Value.noConfusion h)
  | .tuple _, .bool _ => isFalse (fun h => Value.noConfusion h)
  | .tuple _, .str _ => isFalse (fun h => Value.noConfusion h)
  | .tuple _, .none => isFalse (fun h => Value.noConfusion h)

def Value.decEqList : (a b : List Value) → Decidable (a = b)
  | [], [] => isTrue rfl
  | [], _ :: _ => isFalse (fun h => List.noConfusion h)
  | _ :: _, [] => isFalse (fun h => List.noConfusion h)
  | a :: as, b :: bs =>
    match Value.decEq a b, Value.decEqList as bs with
    | isTrue h1, isTrue h2 => isTrue (by rw [h1, h2])
    | isFalse h1, _ => isFalse (fun hh => h1 (by cases hh; rfl))
    | isTrue _, isFalse h2 => isFalse (fun hh => h2 (by cases hh; rfl))

end

instance : DecidableEq Value := Value.decEq

/-- Modelled from the spec: one entry of an operator's argument schema:
a name, a keyword-only flag, and a declared default value. -/
structure Argument (α : Type) where
  name : String
  kwarg_only : Bool
  default_value : α
  deriving DecidableEq

/-- Modelled from the spec: the mutable data of one graph node. -/
structure NodeData where
  op : Op
  target : Target
  args : List Value
  kwargs : List (String × Value)
  deriving DecidableEq

/-- Modelled from the spec: a graph is the ordered sequence of nodes
(def-before-use program order), each node carried with its stable identity. -/
abbrev Graph := List (Nat × NodeData)

/-- Look a node up by its id. -/
def getNode? (g : Graph) (i : Nat) : Option NodeData :=
  match g with
  | [] => Option.none
  | (j, nd) :: rest => if j = i then some nd else getNode? rest i

/-- First-match lookup in a keyword-argument mapping. -/
def lookupKw {α : Type} (kwargs : List (String × α)) (name : String) : Option α :=
  match kwargs with
  | [] => Option.none
  | (k, v) :: rest => if k = name then some v else lookupKw rest name

/-- `_get_all_arguments`, inner loop: walk the schema carrying the running
index `i`, choosing for each entry the keyword argument of that name if
present, else the positional argument at index `i` when the entry is not
keyword-only and such a positional exists, else the entry's declared default. -/
def getAllArgumentsFrom {α : Type} (orig_args : List α)
    (orig_kwargs : List (String × α)) (i : Nat) :
    List (Argument α) → List α
  | [] => []
  | schema :: rest =>
    (match lookupKw orig_kwargs schema.name with
     | some v => v
     | Option.none =>
       if !schema.kwarg_only && decide (i < orig_args.length) then
         match orig_args.get? i with
         | some v => v
         | Option.none => schema.default_value
       else schema.default_value)
      :: getAllArgumentsFrom orig_args orig_kwargs (i + 1) rest

/-- `_get_all_arguments` from the source: resolve a call's positional and
keyword arguments against the operator's argument schema. -/
def _get_all_arguments {α : Type} (orig_args : List α)
    (orig_kwargs : List (String × α)) (args_schema : List (Argument α)) :
    List α :=
  getAllArgumentsFrom orig_args orig_kwargs 0 args_schema

mutual

/-- Modelled from the spec: does a value contain a reference to node `u`
(including references nested inside tuples/lists)? -/
def valueUses (u : Nat) : Value → Bool
  | .node j => decide (j = u)
  | .tuple vs => valueListUses u vs
  | _ => false

def valueListUses (u : Nat) : List Value → Bool
  | [] => false
  | v :: vs => valueUses u v || valueListUses u vs

end

mutual

/-- Modelled from the spec: replace every reference to node `u` by a reference
to node `c` inside a value (also nested inside tuples/lists). -/
def substValue (u c : Nat) : Value → Value
  | .node j => if j = u then .node c else .node j
  | .tuple vs => .tuple (substValueList u c vs)
  | v => v

def substValueList (u c : Nat) : List Value → List Value
  | [] => []
  | v :: vs => substValue u c v :: substValueList u c vs

end

/-- Does node data `nd` hold a direct argument (or keyword-argument) reference
to node `u`?  This is the defining property of the `users` back-reference set. -/
def referencesNode (nd : NodeData) (u : Nat) : Bool :=
  nd.args.any (valueUses u) || nd.kwargs.any (fun kv => valueUses u kv.2)

/-- Modelled from the spec: the `users` of node `u`, in program order: the ids
of the nodes holding a direct argument reference to `u`. -/
def usersOf (g : Graph) (u : Nat) : List Nat :=
  (g.filter (fun p => referencesNode p.2 u)).map (fun p => p.1)

/-- Modelled from the spec: replace-all-uses: every argument reference to node
`u` held by any other node becomes a reference to node `c`; node `u` itself is
never deleted. -/
def replace_all_uses_with (u c : Nat) (g : Graph) : Graph :=
  g.map (fun p =>
    if p.1 = u then p
    else (p.1, { p.2 with
                 args := substValueList u c p.2.args,
                 kwargs := p.2.kwargs.map (fun kv => (kv.1, substValue u c kv.2)) }))

/-- Modelled from the spec: insert node `n` immediately before the node with
id `a`. -/
def insertBefore (g : Graph) (a : Nat) (n : Nat × NodeData) : Graph :=
  match g with
  | [] => [n]
  | x :: xs => if x.1 = a then n :: x :: xs else x :: insertBefore xs a n

def insertAfterGo (g : Graph) (a : Nat) (n : Nat × NodeData) : Graph :=
  match g with
  | [] => [n]
  | x :: xs => if x.1 = a then x :: n :: xs else x :: insertAfterGo xs a n

/-- Modelled from the spec: insert node `n` immediately after the node with id
`a`; with no anchor (`Option.none`, no placeholder seen yet) the insertion
point is the end of the node list. -/
def insertAfter (g : Graph) (a : Option Nat) (n : Nat × NodeData) : Graph :=
  match a with
  | Option.none => g ++ [n]
  | some i => insertAfterGo g i n

/-- Overwrite the positional argument list of the node with id `i`. -/
def setNodeArgs (g : Graph) (i : Nat) (args : List Value) : Graph :=
  g.map (fun p => if p.1 = i then (p.1, { p.2 with args := args }) else p)

/-- Modelled from the spec: placeholder and output nodes are never removed by
dead-code elimination; every other node of this module is side-effect-free. -/
def isImpure (nd : NodeData) : Bool :=
  nd.op = .placeholder || nd.op = .output

/-- Modelled from the spec: dead-code elimination: walk the nodes in reverse
program order and drop every side-effect-free node that has no remaining
users (on a def-before-use ordered graph all users of a node come after it). -/
def eliminate_dead_code : Graph → Graph
  | [] => []
  | x :: rest =>
    let rest' := eliminate_dead_code rest
    if isImpure x.2 || rest'.any (fun p => referencesNode p.2 x.1) then
      x :: rest'
    else rest'

/-- A node id strictly larger than every id in the graph. -/
def freshId (g : Graph) : Nat :=
  g.foldr (fun p acc => max p.1 acc) 0 + 1

/-- Modelled from the spec: stored constant tensors are opaque to the graph
layer: a named parameter, the `None` placeholder for an absent tensor, or an
application of the external affine-fusion primitive (kept as a free term so
that only the call structure is represented). -/
inductive Tensor where
  | base (s : String)
  | noneT
  | fusedWeight (cw cb rm rv : Tensor) (eps : Value) (w b : Tensor)
      (transpose : Value)
  | fusedBias (cw cb rm rv : Tensor) (eps : Value) (w b : Tensor)
      (transpose : Value)
  deriving DecidableEq

/-- Convert an optional tensor to the opaque-tensor encoding of `None`. -/
def optTensor (t : Option Tensor) : Tensor :=
  t.getD .noneT

/-- Modelled from the spec: the numeric fusion primitive
`fuse_conv_bn_weights(conv_w, conv_b, bn_rm, bn_rv, bn_eps, bn_w, bn_b,
transpose)` of the external numeric collaborator, producing a fused weight and
a fused bias; uninterpreted. -/
def fuse_conv_bn_weights (conv_w conv_b bn_rm bn_rv : Option Tensor)
    (bn_eps : Value) (bn_w bn_b : Option Tensor) (transpose : Value) :
    Tensor × Tensor :=
  (.fusedWeight (optTensor conv_w) (optTensor conv_b) (optTensor bn_rm)
     (optTensor bn_rv) bn_eps (optTensor bn_w) (optTensor bn_b) transpose,
   .fusedBias (optTensor conv_w) (optTensor conv_b) (optTensor bn_rm)
     (optTensor bn_rv) bn_eps (optTensor bn_w) (optTensor bn_b) transpose)

/-- Modelled from the spec: the parameter store of the owning module: a
mapping from attribute-name strings to tensors. -/
abbrev Store := List (String × Tensor)

/-- `setattr` on the parameter store: overwrite the binding if the name is
bound, append it otherwise. -/
def setattrStore : Store → String → Tensor → Store
  | [], s, t => [(s, t)]
  | (k, v) :: rest, s, t =>
    if k = s then (s, t) :: rest else (k, v) :: setattrStore rest s t

instance {ε α : Type} [DecidableEq ε] [DecidableEq α] :
    DecidableEq (Except ε α) := fun a b =>
  match a, b with
  | .error e, .error f =>
    match decEq e f with
    | isTrue h => isTrue (by rw [h])
    | isFalse h => isFalse (fun hh => h (by cases hh; rfl))
  | .ok x, .ok y =>
    match decEq x y with
    | isTrue h => isTrue (by rw [h])
    | isFalse h => isFalse (fun hh => h (by cases hh; rfl))
  | .error _, .ok _ => isFalse (fun h => Except.noConfusion h)
  | .ok _, .error _ => isFalse (fun h => Except.noConfusion h)

/-- Python exception kinds that the embedded functions can raise. -/
inductive PyErr where
  | assertionError
  | valueError
  | attributeError
  | indexError
  | typeError
  deriving DecidableEq

/-- A schema argument over `Value`. -/
abbrev ArgumentV := Argument Value

/-- A positional schema entry with no declared default. -/
def mkArg (n : String) : ArgumentV :=
  ⟨n, false, Value.none⟩

/-- Modelled from the spec (and the source's in-line comment): the argument
schemas declared by operator overloads.  The "no-training" batch-norm variant
takes `(input, weight, bias, running_mean, running_var, momentum, eps)`; the
"training" variant takes `(input, weight, bias, running_mean, running_var,
training, momentum, eps)`; a generic operator flagged as having a schema
declares eight positional parameters; every other target declares none
(attribute access of the schema fails on it). -/
def targetSchema : Target → Option (List ArgumentV)
  | .bn_no_training =>
    some [mkArg "input", mkArg "weight", mkArg "bias", mkArg "running_mean",
          mkArg "running_var", mkArg "momentum", mkArg "eps"]
  | .bn_training =>
    some [mkArg "input", mkArg "weight", mkArg "bias", mkArg "running_mean",
          mkArg "running_var", mkArg "training", mkArg "momentum", mkArg "eps"]
  | .opOther _ true =>
    some [mkArg "arg0", mkArg "arg1", mkArg "arg2", mkArg "arg3", mkArg "arg4",
          mkArg "arg5", mkArg "arg6", mkArg "arg7"]
  | _ => Option.none

/-- `_get_tensor_constant_from_node` from the source: `None` resolves to
`None`; a node reference must be a `get_attr` node whose (string) target is
looked up in the parameter store; anything else raises. -/
def _get_tensor_constant_from_node (v : Value) (g : Graph) (m : Store) :
    Except PyErr (Option Tensor) :=
  match v with
  | .none => .ok Option.none
  | .node i =>
    match getNode? g i with
    | Option.none => .error .assertionError
    | some nd =>
      if nd.op = .get_attr then
        match nd.target with
        | .attr s =>
          match lookupKw m s with
          | some t => .ok (some t)
          | Option.none => .error .attributeError
        | _ => .error .typeError
      else .error .assertionError
  | _ => .error .attributeError

/-- The rewiring loop at the end of `fold_bn_weights_into_conv_node`: walk the
users of the batch-norm node; every user that is a `call_function` on
`getitem` whose second argument is the literal `0` has all of its own uses
replaced by the convolution node; every other user is skipped. -/
def rewireLoop (conv_id : Nat) : List Nat → Graph → Except PyErr Graph
  | [], g => .ok g
  | u :: rest, g =>
    match getNode? g u with
    | Option.none => rewireLoop conv_id rest g
    | some nd =>
      if nd.op = .call_function then
        if nd.target = .getitem then
          match nd.args.get? 1 with
          | Option.none => .error .indexError
          | some v =>
            if v = .num 0 then
              rewireLoop conv_id rest (replace_all_uses_with u conv_id g)
            else rewireLoop conv_id rest g
        else rewireLoop conv_id rest g
      else rewireLoop conv_id rest g

/-- Redirect the users of every "select output index 0" accessor of the
batch-norm node to the convolution node. -/
def rewireGetitemUsers (bn_id conv_id : Nat) (g : Graph) :
    Except PyErr Graph :=
  rewireLoop conv_id (usersOf g bn_id) g

/-- The tail of `fold_bn_weights_into_conv_node` after the read-only argument
resolution: select the eps index by exact target identity (raising the
`ValueError` for any other target, before any mutation), fuse, store the new
weight and bias (synthesizing a bias `get_attr` node when the convolution had
none), and rewire the index-0 accessors. -/
def foldAfterReads (conv_id : Nat) (conv_weight_v conv_bias_v : Value)
    (bn_id : Nat) (g : Graph) (m : Store) (conv bn : NodeData)
    (conv_w conv_b : Option Tensor) (transpose : Value)
    (bn_args : List Value) (bn_w bn_b bn_rm bn_rv : Option Tensor) :
    Except PyErr (Graph × Store) :=
  match (if bn.target = .bn_no_training then Except.ok 6
         else if bn.target = .bn_training then Except.ok 7
         else Except.error PyErr.valueError : Except PyErr Nat) with
  | .error e => .error e
  | .ok eps_arg_index =>
    match bn_args.get? eps_arg_index with
    | Option.none => .error .indexError
    | some bn_eps =>
      let fused := fuse_conv_bn_weights conv_w conv_b bn_rm bn_rv bn_eps
        bn_w bn_b transpose
      match conv_weight_v with
      | .node wid =>
        (match getNode? g wid with
         | Option.none => .error .attributeError
         | some wnd =>
           match wnd.target with
           | .attr weight_attr_name =>
             let m1 := setattrStore m weight_attr_name fused.1
             (match conv_bias_v with
              | .node bid =>
                (match getNode? g bid with
                 | Option.none => .error .attributeError
                 | some bnd =>
                   match bnd.target with
                   | .attr bias_attr_name =>
                     let m2 := setattrStore m1 bias_attr_name fused.2
                     let g1 := setNodeArgs g conv_id conv.args
                     (match rewireGetitemUsers bn_id conv_id g1 with
                      | .error e => .error e
                      | .ok g2 => .ok (g2, m2))
                   | _ => .error .typeError)
              | .none =>
                let bias_attr_name := weight_attr_name ++ "_bias"
                let bias_id := freshId g
                let g1 := insertBefore g conv_id
                  (bias_id, ⟨.get_attr, .attr bias_attr_name, [], []⟩)
                let m2 := setattrStore m1 bias_attr_name fused.2
                let g2 := setNodeArgs g1 conv_id
                  (conv.args.set 2 (.node bias_id))
                (match rewireGetitemUsers bn_id conv_id g2 with
                 | .error e => .error e
                 | .ok g3 => .ok (g3, m2))
              | _ => .error .attributeError)
           | _ => .error .assertionError)
      | _ => .error .attributeError

/-- `fold_bn_weights_into_conv_node` from the source.  The convolution node
and batch-norm node are given by id; the convolution's weight and bias
operands are given as the argument values the caller read from the
convolution's argument list (a node reference, or `None` for an absent
bias).  Returns the rewritten graph and parameter store, or the Python
exception raised. -/
def fold_bn_weights_into_conv_node (conv_id : Nat)
    (conv_weight_v conv_bias_v : Value) (bn_id : Nat) (g : Graph)
    (m : Store) : Except PyErr (Graph × Store) :=
  match getNode? g conv_id, getNode? g bn_id with
  | some conv, some bn =>
    (match _get_tensor_constant_from_node conv_weight_v g m with
     | .error e => .error e
     | .ok conv_w =>
       match _get_tensor_constant_from_node conv_bias_v g m with
       | .error e => .error e
       | .ok conv_b =>
         match conv.args.get? 6 with
         | Option.none => .error .indexError
         | some transpose =>
           match targetSchema bn.target with
           | Option.none => .error .attributeError
           | some bn_args_schema =>
             let bn_args := _get_all_arguments bn.args bn.kwargs bn_args_schema
             match bn_args.get? 1 with
             | Option.none => .error .indexError
             | some v1 =>
               match _get_tensor_constant_from_node v1 g m with
               | .error e => .error e
               | .ok bn_w =>
                 match bn_args.get? 2 with
                 | Option.none => .error .indexError
                 | some v2 =>
                   match _get_tensor_constant_from_node v2 g m with
                   | .error e => .error e
                   | .ok bn_b =>
                     match bn_args.get? 3 with
                     | Option.none => .error .indexError
                     | some v3 =>
                       match _get_tensor_constant_from_node v3 g m with
                       | .error e => .error e
                       | .ok bn_rm =>
                         match bn_args.get? 4 with
                         | Option.none => .error .indexError
                         | some v4 =>
                           match _get_tensor_constant_from_node v4 g m with
                           | .error e => .error e
                           | .ok bn_rv =>
                             foldAfterReads conv_id conv_weight_v conv_bias_v
                               bn_id g m conv bn conv_w conv_b transpose
                               bn_args bn_w bn_b bn_rm bn_rv)
  | _, _ => .error .assertionError

/-- The scan of `_fuse_conv_bn_`: visit each node id in program order; a
`call_function` node targeting the "no-training" batch-norm variant whose
first argument is a `call_function` on the convolution operator triggers the
fold (with the convolution's second and third arguments as weight and bias
operands); every other node is skipped. -/
def fuseLoop : List Nat → Graph → Store → Except PyErr (Graph × Store)
  | [], g, m => .ok (g, m)
  | i :: rest, g, m =>
    match getNode? g i with
    | Option.none => fuseLoop rest g m
    | some nd =>
      if nd.op = .call_function ∧ nd.target = .bn_no_training then
        match nd.args.get? 0 with
        | Option.none => .error .indexError
        | some (.node ci) =>
          (match getNode? g ci with
           | Option.none => .error .attributeError
           | some cnd =>
             if cnd.op = .call_function ∧ cnd.target = .convolution then
               match cnd.args.get? 1, cnd.args.get? 2 with
               | some wv, some bv =>
                 (match fold_bn_weights_into_conv_node ci wv bv i g m with
                  | .error e => .error e
                  | .ok (g', m') => fuseLoop rest g' m')
               | _, _ => .error .indexError
             else fuseLoop rest g m)
        | some _ => .error .attributeError
      else fuseLoop rest g m

/-- `_fuse_conv_bn_` from the source: scan the whole graph once, folding every
matched convolution + "no-training" batch-norm pair, then run dead-code
elimination (recompilation has no graph-level effect). -/
def _fuse_conv_bn_ (g : Graph) (m : Store) : Except PyErr (Graph × Store) :=
  match fuseLoop (g.map (fun p => p.1)) g m with
  | .error e => .error e
  | .ok (g', m') => .ok (eliminate_dead_code g', m')

mutual

/-- Simultaneous form of use-replacement: redirect every reference to a node
of the set `us` to the node `c` (nested tuples included). -/
def substValueSet (us : List Nat) (c : Nat) : Value → Value
  | .node j => if j ∈ us then .node c else .node j
  | .tuple vs => .tuple (substValueListSet us c vs)
  | v => v

def substValueListSet (us : List Nat) (c : Nat) : List Value → List Value
  | [] => []
  | v :: vs => substValueSet us c v :: substValueListSet us c vs

end

/-- Redirect, inside one node's data, every reference to a node of `us` to
`c`. -/
def substNodeSet (us : List Nat) (c : Nat) (nd : NodeData) : NodeData :=
  { nd with
    args := substValueListSet us c nd.args,
    kwargs := nd.kwargs.map (fun kv => (kv.1, substValueSet us c kv.2)) }

/-- Simultaneously redirect, in every node other than the members of `us`
themselves, every reference to a member of `us` to `c`. -/
def redirectUsers (us : List Nat) (c : Nat) (g : Graph) : Graph :=
  g.map (fun p => if p.1 ∈ us then p else (p.1, substNodeSet us c p.2))

/-- Is this node data a "select output index 0" accessor of node `bn`:
a `call_function` on `getitem` whose second argument is the literal `0`,
referencing `bn`? -/
def isGetitem0Accessor (bn : Nat) (nd : NodeData) : Bool :=
  referencesNode nd bn && decide (nd.op = Op.call_function) &&
    decide (nd.target = Target.getitem) &&
    decide (nd.args.get? 1 = some (Value.num 0))

/-- The ids of the "select output index 0" accessors of node `bn`, in program
order. -/
def getitem0Users (g : Graph) (bn : Nat) : List Nat :=
  (g.filter (fun p => isGetitem0Accessor bn p.2)).map (fun p => p.1)

/-- First-match lookup in the overload substitution table. -/
def lookupTarget (l : List (Target × Target)) (t : Target) : Option Target :=
  match l with
  | [] => Option.none
  | (k, v) :: rest => if k = t then some v else lookupTarget rest t

/-- The `_MAP` substitution table of `remove_tensor_overload_for_qdq_ops`:
the nine overload-suffixed quantize/dequantize/clamp targets and their
overload-free replacements. -/
def qdqOverloadMap : List (Target × Target) :=
  [(.q_per_tensor_default, .q_per_tensor),
   (.dq_per_tensor_default, .dq_per_tensor),
   (.q_per_tensor_tensor, .q_per_tensor),
   (.dq_per_tensor_tensor, .dq_per_tensor),
   (.q_per_tensor_tensor2, .q_per_tensor),
   (.dq_per_tensor_tensor2, .dq_per_tensor),
   (.q_per_channel_default, .q_per_channel),
   (.dq_per_channel_default, .dq_per_channel),
   (.clamp_Tensor, .clamp)]

/-- `remove_tensor_overload_for_qdq_ops` from the source: every
`call_function` node whose target is a key of the substitution table gets the
table's replacement target; every other node is left alone. -/
def remove_tensor_overload_for_qdq_ops (g : Graph) : Graph :=
  g.map (fun p =>
    if p.2.op = .call_function then
      match lookupTarget qdqOverloadMap p.2.target with
      | some t => (p.1, { p.2 with target := t })
      | Option.none => p
    else p)

/-- Modelled from the spec: a match produced by the subgraph matcher, as
consumed by `_is_dropout_filter`: the association from pattern-graph node
names to the matched nodes of the target graph. -/
structure InternalMatch where
  nodes_map : List (String × NodeData)

/-- Remove the first occurrence of a target from a list. -/
def removeFirstTarget : List Target → Target → List Target
  | [], _ => []
  | x :: xs, t => if x = t then xs else x :: removeFirstTarget xs t

/-- The required operator set of the aten dropout idiom: elementwise tensor
allocation, random-boolean sampling, scalar division, tensor multiplication. -/
def dropoutOps : List Target :=
  [.empty_like_default, .bernoulli_float, .div_Scalar, .mul_Tensor]

/-- `_is_dropout_filter` from the source: drop from the required operator set
every target that some matched node carries; accept the match exactly when
the set is emptied. -/
def _is_dropout_filter (mtch : InternalMatch)
    (original_graph pattern_graph : Graph) : Bool :=
  (mtch.nodes_map.foldl
    (fun acc p =>
      if p.2.target ∈ acc then removeFirstTarget acc p.2.target else acc)
    dropoutOps).length = 0

/-- The intermediate graph built by the fold when the convolution has no bias
operand: a fresh `get_attr` node for `<weight-name>_bias` inserted immediately
before the convolution, whose third positional argument is pointed at it. -/
def biasInsertedGraph (g : Graph) (conv_id : Nat) (conv : NodeData)
    (wname : String) : Graph :=
  setNodeArgs (insertBefore g conv_id
    (freshId g, ⟨.get_attr, .attr (wname ++ "_bias"), [], []⟩))
    conv_id (conv.args.set 2 (.node (freshId g)))

/-- The per-node effect of overload canonicalization: a `call_function` node
whose target is a key of the substitution table gets the replacement target;
every other node is untouched. -/
def canonNode (nd : NodeData) : NodeData :=
  if nd.op = .call_function then
    match lookupTarget qdqOverloadMap nd.target with
    | some t => { nd with target := t }
    | Option.none => nd
  else nd

/-- A match covering all four operators of the aten dropout idiom. -/
def dropoutMatchExample : InternalMatch :=
  ⟨[("empty_like", ⟨.call_function, .empty_like_default, [], []⟩),
    ("bernoulli", ⟨.call_function, .bernoulli_float, [], []⟩),
    ("div", ⟨.call_function, .div_Scalar, [], []⟩),
    ("mul", ⟨.call_function, .mul_Tensor, [], []⟩)]⟩

/-- A one-node graph carrying the `tensor2` overload of quantize. -/
def qdqExampleGraph : Graph :=
  [(0, ⟨.call_function, .q_per_tensor_tensor2, [], []⟩)]

mutual

/-- `_is_literal` from the source: an `int`/`float` (a Python `bool` is an
`int`), or a tuple/list all of whose elements are literals. -/
def _is_literal : Value → Bool
  | .num _ => true
  | .bool _ => true
  | .tuple vs => isLiteralList vs
  | _ => false

def isLiteralList : List Value → Bool
  | [] => true
  | v :: vs => _is_literal v && isLiteralList vs

end

/-- Modelled from the spec: the graph module handed to literal promotion: the
graph together with the number of leaf slots of the external calling
convention's input spec (the `children_specs` list of the input spec's first
child, to which the pass appends one `LeafSpec` per promoted literal). -/
structure GM where
  graph : Graph
  in_spec_leaves : Nat
  deriving DecidableEq

/-- The inner argument walk of `_replace_literals_with_placeholders`: each
literal argument creates a placeholder named `arg<cnt>` inserted at the
current insertion point (immediately after the last placeholder seen, or at
the end of the graph when none was seen), appends one leaf to the input spec,
and is replaced in place by a reference to the new placeholder; every other
argument is kept. Returns the rewritten argument list and the updated graph,
name counter, fresh-id counter and leaf count. -/
def processArgs (last_ph : Option Nat) :
    List Value → Graph → Nat → Nat → Nat →
    (List Value × Graph × Nat × Nat × Nat)
  | [], g, cnt, fresh, leaves => ([], g, cnt, fresh, leaves)
  | a :: rest, g, cnt, fresh, leaves =>
    if _is_literal a then
      let g' := insertAfter g last_ph
        (fresh, ⟨.placeholder, .attr ("arg" ++ toString cnt), [], []⟩)
      let r := processArgs last_ph rest g' (cnt + 1) (fresh + 1) (leaves + 1)
      (Value.node fresh :: r.1, r.2)
    else
      let r := processArgs last_ph rest g cnt fresh leaves
      (a :: r.1, r.2)

/-- The node loop of `_replace_literals_with_placeholders`: placeholders
advance the insertion anchor and the name counter; every other node has its
positional arguments walked by `processArgs` and overwritten in place.
The loop runs over the ids of the original node sequence: nodes inserted
behind the anchor are never revisited, and nodes inserted at the end are
placeholders whose late visit could no longer affect the graph. -/
def rlpLoop : List Nat → Graph → Option Nat → Nat → Nat → Nat →
    (Graph × Nat)
  | [], g, _, _, _, leaves => (g, leaves)
  | i :: rest, g, last_ph, cnt, fresh, leaves =>
    match getNode? g i with
    | Option.none => rlpLoop rest g last_ph cnt fresh leaves
    | some nd =>
      if nd.op = .placeholder then
        rlpLoop rest g (some i) (cnt + 1) fresh leaves
      else
        let r := processArgs last_ph nd.args g cnt fresh leaves
        rlpLoop rest (setNodeArgs r.2.1 i r.1) last_ph r.2.2.1 r.2.2.2.1
          r.2.2.2.2

/-- `_replace_literals_with_placeholders` from the source. -/
def _replace_literals_with_placeholders (gm : GM) : GM :=
  let r := rlpLoop (gm.graph.map (fun p => p.1)) gm.graph Option.none 0
    (freshId gm.graph) gm.in_spec_leaves
  ⟨r.1, r.2⟩

/-- A bias-less convolution followed by a "no-training" batch-norm whose
first AND second outputs are consumed (`getitem 0` and `getitem 1`). -/
def convBnGraph : Graph :=
  [(0, ⟨.placeholder, .attr "x", [], []⟩),
   (1, ⟨.get_attr, .attr "conv_w", [], []⟩),
   (2, ⟨.call_function, .convolution,
        [.node 0, .node 1, .none, .num 1, .num 0, .num 1, .bool false], []⟩),
   (3, ⟨.get_attr, .attr "bn_w", [], []⟩),
   (4, ⟨.get_attr, .attr "bn_b", [], []⟩),
   (5, ⟨.get_attr, .attr "bn_rm", [], []⟩),
   (6, ⟨.get_attr, .attr "bn_rv", [], []⟩),
   (7, ⟨.call_function, .bn_no_training,
        [.node 2, .node 3, .node 4, .node 5, .node 6, .num 1, .num 2], []⟩),
   (8, ⟨.call_function, .getitem, [.node 7, .num 0], []⟩),
   (9, ⟨.call_function, .getitem, [.node 7, .num 1], []⟩),
   (10, ⟨.output, .attr "output", [.tuple [.node 8, .node 9]], []⟩)]

/-- The parameter store backing the example graphs. -/
def convBnStore : Store :=
  [("conv_w", .base "cw"), ("bn_w", .base "bw"), ("bn_b", .base "bb"),
   ("bn_rm", .base "brm"), ("bn_rv", .base "brv")]

/-- The weight produced by the first fusion of the example pair. -/
def fusedW1 : Tensor :=
  .fusedWeight (.base "cw") .noneT (.base "brm") (.base "brv") (.num 2)
    (.base "bw") (.base "bb") (.bool false)

/-- The bias produced by the first fusion of the example pair. -/
def fusedB1 : Tensor :=
  .fusedBias (.base "cw") .noneT (.base "brm") (.base "brv") (.num 2)
    (.base "bw") (.base "bb") (.bool false)

/-- `convBnGraph` after one run of the fusion pass: the `getitem 0` accessor
is dead and removed, the batch-norm survives through its live `getitem 1`
accessor, the output now consumes the convolution directly, and a synthesized
bias `get_attr` node (id 11) sits immediately before the convolution. -/
def convBnFusedGraph : Graph :=
  [(0, ⟨.placeholder, .attr "x", [], []⟩),
   (1, ⟨.get_attr, .attr "conv_w", [], []⟩),
   (11, ⟨.get_attr, .attr "conv_w_bias", [], []⟩),
   (2, ⟨.call_function, .convolution,
        [.node 0, .node 1, .node 11, .num 1, .num 0, .num 1, .bool false], []⟩),
   (3, ⟨.get_attr, .attr "bn_w", [], []⟩),
   (4, ⟨.get_attr, .attr "bn_b", [], []⟩),
   (5, ⟨.get_attr, .attr "bn_rm", [], []⟩),
   (6, ⟨.get_attr, .attr "bn_rv", [], []⟩),
   (7, ⟨.call_function, .bn_no_training,
        [.node 2, .node 3, .node 4, .node 5, .node 6, .num 1, .num 2], []⟩),
   (9, ⟨.call_function, .getitem, [.node 7, .num 1], []⟩),
   (10, ⟨.output, .attr "output", [.tuple [.node 2, .node 9]], []⟩)]

/-- The parameter store after one run of the fusion pass on `convBnGraph`. -/
def convBnFusedStore : Store :=
  [("conv_w", fusedW1), ("bn_w", .base "bw"), ("bn_b", .base "bb"),
   ("bn_rm", .base "brm"), ("bn_rv", .base "brv"), ("conv_w_bias", fusedB1)]

/-- The parameter store after a second run of the fusion pass on the already
fused graph: the surviving batch-norm node is matched again and the weight
and bias are fused a second time. -/
def convBnTwiceStore : Store :=
  [("conv_w", .fusedWeight fusedW1 fusedB1 (.base "brm") (.base "brv")
      (.num 2) (.base "bw") (.base "bb") (.bool false)),
   ("bn_w", .base "bw"), ("bn_b", .base "bb"),
   ("bn_rm", .base "brm"), ("bn_rv", .base "brv"),
   ("conv_w_bias", .fusedBias fusedW1 fusedB1 (.base "brm") (.base "brv")
      (.num 2) (.base "bw") (.base "bb") (.bool false))]

/-- `convBnGraph` right after the fold (before dead-code elimination): the
dead `getitem 0` accessor is still present. -/
def convBnFoldedGraph : Graph :=
  [(0, ⟨.placeholder, .attr "x", [], []⟩),
   (1, ⟨.get_attr, .attr "conv_w", [], []⟩),
   (11, ⟨.get_attr, .attr "conv_w_bias", [], []⟩),
   (2, ⟨.call_function, .convolution,
        [.node 0, .node 1, .node 11, .num 1, .num 0, .num 1, .bool false], []⟩),
   (3, ⟨.get_attr, .attr "bn_w", [], []⟩),
   (4, ⟨.get_attr, .attr "bn_b", [], []⟩),
   (5, ⟨.get_attr, .attr "bn_rm", [], []⟩),
   (6, ⟨.get_attr, .attr "bn_rv", [], []⟩),
   (7, ⟨.call_function, .bn_no_training,
        [.node 2, .node 3, .node 4, .node 5, .node 6, .num 1, .num 2], []⟩),
   (8, ⟨.call_function, .getitem, [.node 7, .num 0], []⟩),
   (9, ⟨.call_function, .getitem, [.node 7, .num 1], []⟩),
   (10, ⟨.output, .attr "output", [.tuple [.node 2, .node 9]], []⟩)]

/-- `convBnGraph` with only the first batch-norm output consumed: after
fusion the batch-norm node is dead and eliminated. -/
def convBnCleanGraph : Graph :=
  [(0, ⟨.placeholder, .attr "x", [], []⟩),
   (1, ⟨.get_attr, .attr "conv_w", [], []⟩),
   (2, ⟨.call_function, .convolution,
        [.node 0, .node 1, .none, .num 1, .num 0, .num 1, .bool false], []⟩),
   (3, ⟨.get_attr, .attr "bn_w", [], []⟩),
   (4, ⟨.get_attr, .attr "bn_b", [], []⟩),
   (5, ⟨.get_attr, .attr "bn_rm", [], []⟩),
   (6, ⟨.get_attr, .attr "bn_rv", [], []⟩),
   (7, ⟨.call_function, .bn_no_training,
        [.node 2, .node 3, .node 4, .node 5, .node 6, .num 1, .num 2], []⟩),
   (8, ⟨.call_function, .getitem, [.node 7, .num 0], []⟩),
   (10, ⟨.output, .attr "output", [.tuple [.node 8]], []⟩)]

/-- `convBnCleanGraph` after the fusion pass: no batch-norm node remains. -/
def convBnCleanFusedGraph : Graph :=
  [(0, ⟨.placeholder, .attr "x", [], []⟩),
   (1, ⟨.get_attr, .attr "conv_w", [], []⟩),
   (11, ⟨.get_attr, .attr "conv_w_bias", [], []⟩),
   (2, ⟨.call_function, .convolution,
        [.node 0, .node 1, .node 11, .num 1, .num 0, .num 1, .bool false], []⟩),
   (10, ⟨.output, .attr "output", [.tuple [.node 2]], []⟩)]

/-- `convBnCleanGraph` with the batch-norm node replaced by the "training"
variant (eight arguments, eps last). -/
def convBnTrainGraph : Graph :=
  [(0, ⟨.placeholder, .attr "x", [], []⟩),
   (1, ⟨.get_attr, .attr "conv_w", [], []⟩),
   (2, ⟨.call_function, .convolution,
        [.node 0, .node 1, .none, .num 1, .num 0, .num 1, .bool false], []⟩),
   (3, ⟨.get_attr, .attr "bn_w", [], []⟩),
   (4, ⟨.get_attr, .attr "bn_b", [], []⟩),
   (5, ⟨.get_attr, .attr "bn_rm", [], []⟩),
   (6, ⟨.get_attr, .attr "bn_rv", [], []⟩),
   (7, ⟨.call_function, .bn_training,
        [.node 2, .node 3, .node 4, .node 5, .node 6, .bool true, .num 1,
         .num 2], []⟩),
   (8, ⟨.call_function, .getitem, [.node 7, .num 0], []⟩),
   (10, ⟨.output, .attr "output", [.tuple [.node 8]], []⟩)]

/-- `convBnTrainGraph` after a direct call of the fold (which accepts the
training variant): fused, rewired, the dead accessor not yet eliminated. -/
def convBnTrainFoldedGraph : Graph :=
  [(0, ⟨.placeholder, .attr "x", [], []⟩),
   (1, ⟨.get_attr, .attr "conv_w", [], []⟩),
   (11, ⟨.get_attr, .attr "conv_w_bias", [], []⟩),
   (2, ⟨.call_function, .convolution,
        [.node 0, .node 1, .node 11, .num 1, .num 0, .num 1, .bool false], []⟩),
   (3, ⟨.get_attr, .attr "bn_w", [], []⟩),
   (4, ⟨.get_attr, .attr "bn_b", [], []⟩),
   (5, ⟨.get_attr, .attr "bn_rm", [], []⟩),
   (6, ⟨.get_attr, .attr "bn_rv", [], []⟩),
   (7, ⟨.call_function, .bn_training,
        [.node 2, .node 3, .node 4, .node 5, .node 6, .bool true, .num 1,
         .num 2], []⟩),
   (8, ⟨.call_function, .getitem, [.node 7, .num 0], []⟩),
   (10, ⟨.output, .attr "output", [.tuple [.node 2]], []⟩)]

/-- Expected effect of literal promotion on one argument list: each literal
is replaced in place by a reference to a fresh placeholder named `arg<cnt>`;
returns the rewritten arguments, the created placeholder nodes in creation
(left-to-right) order, and the advanced name and id counters. -/
def promoteArgs (cnt fresh : Nat) :
    List Value → (List Value × List (Nat × NodeData) × Nat × Nat)
  | [] => ([], [], cnt, fresh)
  | a :: rest =>
    if _is_literal a then
      let r := promoteArgs (cnt + 1) (fresh + 1) rest
      (Value.node fresh :: r.1,
       (fresh, ⟨.placeholder, .attr ("arg" ++ toString cnt), [], []⟩) ::
         r.2.1,
       r.2.2)
    else
      let r := promoteArgs cnt fresh rest
      (a :: r.1, r.2)

/-- Expected effect of literal promotion on the non-placeholder tail of a
graph: every node's argument list is promoted in node-then-argument order;
returns the rewritten nodes, the created placeholders in creation order, and
the advanced counters. -/
def promoteNodes (cnt fresh : Nat) :
    Graph → (Graph × List (Nat × NodeData) × Nat × Nat)
  | [] => ([], [], cnt, fresh)
  | (i, nd) :: rest =>
    let ra := promoteArgs cnt fresh nd.args
    let rr := promoteNodes ra.2.2.1 ra.2.2.2 rest
    ((i, { nd with args := ra.1 }) :: rr.1, ra.2.1 ++ rr.2.1, rr.2.2)

/-- The spec's literal-promotion example: one placeholder, one operation with
the literal arguments `3` and `(1, 2)` in that traversal order. -/
def litGM : GM :=
  ⟨[(0, ⟨.placeholder, .attr "x", [], []⟩),
    (1, ⟨.call_function, .opOther "add" false,
         [.node 0, .num 3, .tuple [.num 1, .num 2]], []⟩),
    (2, ⟨.output, .attr "output", [.node 1], []⟩)], 1⟩

/-- `litGM` after literal promotion: the placeholder `arg2` for the SECOND
literal sits immediately after the original placeholder, BEFORE the
placeholder `arg1` for the first literal: each insertion lands immediately
after the last original placeholder, so the created placeholders end up in
reverse traversal order. -/
def litGMPromoted : GM :=
  ⟨[(0, ⟨.placeholder, .attr "x", [], []⟩),
    (4, ⟨.placeholder, .attr "arg2", [], []⟩),
    (3, ⟨.placeholder, .attr "arg1", [], []⟩),
    (1, ⟨.call_function, .opOther "add" false,
         [.node 0, .node 3, .node 4], []⟩),
    (2, ⟨.output, .attr "output", [.node 1], []⟩)], 3⟩

/-- A graph whose operation carries a literal only as a keyword argument. -/
def kwargLitGM : GM :=
  ⟨[(0, ⟨.placeholder, .attr "x", [], []⟩),
    (1, ⟨.call_function, .opOther "add" false, [.node 0],
         [("alpha", .num 3)]⟩),
    (2, ⟨.output, .attr "output", [.node 1], []⟩)], 1⟩

theorem getAllArgumentsFrom_length {α : Type} (orig_args : List α)
    (orig_kwargs : List (String × α)) (i : Nat) (sch : List (Argument α)) :
    (getAllArgumentsFrom orig_args orig_kwargs i sch).length = sch.length := by
  induction sch generalizing i with
  | nil => rfl
  | cons s rest ih => simp [getAllArgumentsFrom, ih]

theorem getAllArgumentsFrom_get {α : Type} (orig_args : List α)
    (orig_kwargs : List (String × α)) (i : Nat) (sch : List (Argument α))
    (k : Nat) (hk : k < sch.length) :
    (getAllArgumentsFrom orig_args orig_kwargs i sch).get? k =
      some (match lookupKw orig_kwargs (sch.get ⟨k, hk⟩).name with
            | some v => v
            | Option.none =>
              if !(sch.get ⟨k, hk⟩).kwarg_only
                  && decide (i + k < orig_args.length) then
                match orig_args.get? (i + k) with
                | some v => v
                | Option.none => (sch.get ⟨k, hk⟩).default_value
              else (sch.get ⟨k, hk⟩).default_value) := by
  induction sch generalizing i k with
  | nil => exact absurd hk (by simp)
  | cons s rest ih =>
    cases k with
    | zero => simp [getAllArgumentsFrom]
    | succ k' =>
      have hk' : k' < rest.length := Nat.lt_of_succ_lt_succ hk
      have := ih (i + 1) k' hk'
      simp only [getAllArgumentsFrom, List.get?_cons_succ, this]
      have harith : i + 1 + k' = i + (k' + 1) := by omega
      simp [harith]

theorem getNode?_mem (g : Graph) (i : Nat) (nd : NodeData)
    (h : getNode? g i = some nd) : (i, nd) ∈ g := by
  induction g with
  | nil => simp [getNode?] at h
  | cons x rest ih =>
    obtain ⟨j, d⟩ := x
    by_cases hj : j = i
    · subst hj
      simp [getNode?] at h
      simp [h]
    · simp [getNode?, hj] at h
      exact List.mem_cons_of_mem _ (ih h)

theorem fuseLoop_no_match (ids : List Nat) (g : Graph) (m : Store)
    (h : ∀ p ∈ g, ¬(p.2.op = .call_function ∧ p.2.target = .bn_no_training)) :
    fuseLoop ids g m = .ok (g, m) := by
  induction ids with
  | nil => rfl
  | cons i rest ih =>
    unfold fuseLoop
    cases hn : getNode? g i with
    | none => exact ih
    | some nd =>
      have hmem := getNode?_mem g i nd hn
      have := h _ hmem
      simp only [this, if_false]
      exact ih

theorem eliminate_dead_code_cons (x : Nat × NodeData) (rest : Graph) :
    eliminate_dead_code (x :: rest) =
      if (isImpure x.2 ||
          (eliminate_dead_code rest).any fun p => referencesNode p.2 x.1) then
        x :: eliminate_dead_code rest
      else eliminate_dead_code rest := rfl

theorem eliminate_dead_code_idem (g : Graph) :
    eliminate_dead_code (eliminate_dead_code g) = eliminate_dead_code g := by
  induction g with
  | nil => rfl
  | cons x rest ih =>
    rw [eliminate_dead_code_cons]
    by_cases hc : (isImpure x.2 ||
        (eliminate_dead_code rest).any fun p => referencesNode p.2 x.1) = true
    · rw [if_pos hc, eliminate_dead_code_cons, ih, if_pos hc]
    · rw [if_neg hc]
      exact ih

/-- C1: `_get_all_arguments` returns exactly one entry per schema entry, each
chosen by the precedence keyword-argument / positional-at-index (when not
keyword-only) / declared default, and never raises. -/
theorem claim_C1 {α : Type} (orig_args : List α)
    (orig_kwargs : List (String × α)) (args_schema : List (Argument α)) :
    (_get_all_arguments orig_args orig_kwargs args_schema).length =
      args_schema.length ∧
    ∀ k (hk : k < args_schema.length),
      (∀ v, lookupKw orig_kwargs (args_schema.get ⟨k, hk⟩).name = some v →
        (_get_all_arguments orig_args orig_kwargs args_schema).get? k =
          some v) ∧
      (lookupKw orig_kwargs (args_schema.get ⟨k, hk⟩).name = Option.none →
        (args_schema.get ⟨k, hk⟩).kwarg_only = false →
        k < orig_args.length →
        (_get_all_arguments orig_args orig_kwargs args_schema).get? k =
          orig_args.get? k) ∧
      (lookupKw orig_kwargs (args_schema.get ⟨k, hk⟩).name = Option.none →
        ((args_schema.get ⟨k, hk⟩).kwarg_only = true ∨
          orig_args.length ≤ k) →
        (_get_all_arguments orig_args orig_kwargs args_schema).get? k =
          some (args_schema.get ⟨k, hk⟩).default_value) := by
  constructor
  · exact getAllArgumentsFrom_length orig_args orig_kwargs 0 args_schema
  · intro k hk
    have hget := getAllArgumentsFrom_get orig_args orig_kwargs 0 args_schema
      k hk
    simp only [Nat.zero_add] at hget
    refine ⟨?_, ?_, ?_⟩
    · intro v hv
      rw [_get_all_arguments, hget, hv]
    · intro hnone hkw hlt
      rw [_get_all_arguments, hget, hnone]
      simp only [hkw]
      have hd : decide (k < orig_args.length) = true := by
        simpa using hlt
      simp only [hd, Bool.not_false, Bool.and_self, if_true]
      cases ha : orig_args.get? k with
      | none =>
        exact absurd (List.get?_eq_none.mp ha) (by omega)
      | some v => rfl
    · intro hnone hor
      have hcond : (!(args_schema.get ⟨k, hk⟩).kwarg_only &&
          decide (k < orig_args.length)) = false := by
        rcases hor with h | h
        · rw [h]
          rfl
        · have hd : decide (k < orig_args.length) = false :=
            decide_eq_false (by omega)
          rw [hd, Bool.and_false]
      rw [_get_all_arguments, hget, hnone, hcond]
      rfl

/-- Witness for C1 at a concrete schema exercising the keyword, positional
and default branches. -/
theorem claim_C1_witness :
    (_get_all_arguments [(10 : Int), 20] [("c", 30)]
      [⟨"a", false, 0⟩, ⟨"b", false, 99⟩, ⟨"c", true, 0⟩,
       ⟨"d", false, 77⟩]).get? 2 = some 30 ∧
    (_get_all_arguments [(10 : Int), 20] [("c", 30)]
      [⟨"a", false, 0⟩, ⟨"b", false, 99⟩, ⟨"c", true, 0⟩,
       ⟨"d", false, 77⟩]).get? 1 = some 20 ∧
    (_get_all_arguments [(10 : Int), 20] [("c", 30)]
      [⟨"a", false, 0⟩, ⟨"b", false, 99⟩, ⟨"c", true, 0⟩,
       ⟨"d", false, 77⟩]).get? 3 = some 77 := by
  have h := claim_C1 [(10 : Int), 20] [("c", 30)]
    [⟨"a", false, 0⟩, ⟨"b", false, 99⟩, ⟨"c", true, 0⟩, ⟨"d", false, 77⟩]
  refine ⟨(h.2 2 (by decide)).1 30 (by decide), ?_, ?_⟩
  · have := (h.2 1 (by decide)).2.1 (by decide) (by decide) (by decide)
    simpa using this
  · exact (h.2 3 (by decide)).2.2 (by decide) (Or.inr (by decide))

/-- C5 counterexample: on `convBnGraph` — whose batch-norm second output
stays live — the first run of the fusion pass yields
`(convBnFusedGraph, convBnFusedStore)`, and a second run on that result does
NOT reproduce it: the surviving batch-norm node is matched again and the
parameter store is fused a second time. -/
theorem claim_C5_counterexample :
    _fuse_conv_bn_ convBnGraph convBnStore =
      .ok (convBnFusedGraph, convBnFusedStore) ∧
    _fuse_conv_bn_ convBnFusedGraph convBnFusedStore =
      .ok (convBnFusedGraph, convBnTwiceStore) ∧
    convBnTwiceStore ≠ convBnFusedStore := by
  refine ⟨by decide, by decide, by decide⟩

/-- C5 (amended): the fusion pass is idempotent on every graph it has fully
fused: whenever a run of `_fuse_conv_bn_` produces a graph with no remaining
"no-training" batch-norm `call_function` node (the case in which every fused
normalization node was removed by dead-code elimination), a second run
produces no further change to the graph or the parameter store.  (When a
fused batch-norm node survives — because another of its outputs is live — it
is matched again and the parameter store changes, as the counterexample
shows.) -/
theorem claim_C5 (g : Graph) (m : Store) (g' : Graph) (m' : Store)
    (hres : _fuse_conv_bn_ g m = .ok (g', m'))
    (hno : ∀ p ∈ g', ¬(p.2.op = .call_function ∧ p.2.target = .bn_no_training)) :
    _fuse_conv_bn_ g' m' = .ok (g', m') := by
  unfold _fuse_conv_bn_ at hres ⊢
  cases hfl : fuseLoop (g.map (fun p => p.1)) g m with
  | error e => rw [hfl] at hres; cases hres
  | ok p =>
    rw [hfl] at hres
    obtain ⟨g'', m''⟩ := p
    simp only at hres
    have hg' : eliminate_dead_code g'' = g' := by
      injection hres with h1
      exact congrArg Prod.fst h1
    have hm' : m'' = m' := by
      injection hres with h1
      exact congrArg Prod.snd h1
    rw [fuseLoop_no_match (g'.map (fun p => p.1)) g' m' hno]
    have hi : eliminate_dead_code g' = g' := by
      rw [← hg']
      exact eliminate_dead_code_idem g''
    show Except.ok (eliminate_dead_code g', m') = Except.ok (g', m')
    rw [hi]

/-- Witness for C5 on the fully-fused clean example. -/
theorem claim_C5_witness :
    _fuse_conv_bn_ convBnCleanFusedGraph convBnFusedStore =
      .ok (convBnCleanFusedGraph, convBnFusedStore) :=
  claim_C5 convBnCleanGraph convBnStore convBnCleanFusedGraph
    convBnFusedStore (by decide) (by decide)

/-- C9: the driving loop of the fusion pass selects only nodes whose target
is exactly the "no-training" batch-norm variant: a graph with no such node is
returned unchanged (up to the closing dead-code-elimination step) with an
untouched parameter store — in particular a "training"-variant node is never
fused — even though `fold_bn_weights_into_conv_node` itself accepts the
training variant, as the concrete run in the second conjunct shows. -/
theorem claim_C9 :
    (∀ (g : Graph) (m : Store),
      (∀ p ∈ g, ¬(p.2.op = .call_function ∧ p.2.target = .bn_no_training)) →
      _fuse_conv_bn_ g m = .ok (eliminate_dead_code g, m)) ∧
    fold_bn_weights_into_conv_node 2 (.node 1) .none 7 convBnTrainGraph
      convBnStore = .ok (convBnTrainFoldedGraph, convBnFusedStore) := by
  constructor
  · intro g m h
    unfold _fuse_conv_bn_
    rw [fuseLoop_no_match (g.map (fun p => p.1)) g m h]
  · decide

/-- Witness for C9: the fusion pass leaves the training-variant graph
unchanged apart from dead-code elimination and does not touch the store. -/
theorem claim_C9_witness :
    _fuse_conv_bn_ convBnTrainGraph convBnStore =
      .ok (eliminate_dead_code convBnTrainGraph, convBnStore) :=
  claim_C9.1 convBnTrainGraph convBnStore (by decide)

theorem removeFirstTarget_eq_filter (l : List Target) (t : Target)
    (h : l.Nodup) :
    removeFirstTarget l t = l.filter (fun x => decide (x ≠ t)) := by
  induction l with
  | nil => rfl
  | cons x xs ih =>
    simp only [removeFirstTarget, List.filter_cons]
    rcases List.nodup_cons.mp h with ⟨hx, hxs⟩
    by_cases hxt : x = t
    · subst hxt
      rw [if_pos rfl]
      have : ∀ a ∈ xs, decide (a ≠ x) = true := by
        intro a ha
        simp only [decide_eq_true_eq]
        intro hax
        exact hx (hax ▸ ha)
      rw [(List.filter_eq_self).mpr this]
      simp
    · rw [if_neg hxt, ih hxs]
      simp [hxt]

theorem dropout_foldl (l : List (String × NodeData)) (acc : List Target)
    (hacc : acc.Nodup) :
    l.foldl
      (fun acc p =>
        if p.2.target ∈ acc then removeFirstTarget acc p.2.target else acc)
      acc =
    acc.filter (fun t => decide (∀ p ∈ l, p.2.target ≠ t)) := by
  induction l generalizing acc with
  | nil => simp
  | cons p l ih =>
    rw [List.foldl_cons]
    have hstep :
        (if p.2.target ∈ acc then removeFirstTarget acc p.2.target else acc) =
        acc.filter (fun t => decide (t ≠ p.2.target)) := by
      by_cases hmem : p.2.target ∈ acc
      · rw [if_pos hmem]
        exact removeFirstTarget_eq_filter acc _ hacc
      · rw [if_neg hmem]
        symm
        apply List.filter_eq_self.mpr
        intro a ha
        simp only [decide_eq_true_eq]
        intro hca
        exact hmem (hca ▸ ha)
    rw [hstep, ih _ (hacc.filter _), List.filter_filter]
    apply List.filter_congr
    intro t ht
    by_cases h1 : p.2.target = t
    · simp [List.forall_mem_cons, h1]
    · have h1x : ¬ t = p.2.target := fun he => h1 he.symm
      simp [List.forall_mem_cons, h1, h1x]

/-- C7: `_is_dropout_filter` accepts a match exactly when the matched nodes
collectively cover all four operator targets of the dropout idiom
(elementwise tensor allocation, random-boolean sampling, scalar division,
tensor multiplication); a match missing any one of the four is rejected. -/
theorem claim_C7 (mtch : InternalMatch) (og pg : Graph) :
    _is_dropout_filter mtch og pg = true ↔
      ((∃ p ∈ mtch.nodes_map, p.2.target = .empty_like_default) ∧
       (∃ p ∈ mtch.nodes_map, p.2.target = .bernoulli_float) ∧
       (∃ p ∈ mtch.nodes_map, p.2.target = .div_Scalar) ∧
       (∃ p ∈ mtch.nodes_map, p.2.target = .mul_Tensor)) := by
  unfold _is_dropout_filter
  rw [dropout_foldl mtch.nodes_map dropoutOps (by decide)]
  rw [decide_eq_true_eq, List.length_eq_zero, List.filter_eq_nil_iff]
  constructor
  · intro h
    have h1 := h Target.empty_like_default (by simp [dropoutOps])
    have h2 := h Target.bernoulli_float (by simp [dropoutOps])
    have h3 := h Target.div_Scalar (by simp [dropoutOps])
    have h4 := h Target.mul_Tensor (by simp [dropoutOps])
    simp only [decide_eq_true_eq] at h1 h2 h3 h4
    push_neg at h1 h2 h3 h4
    exact ⟨h1, h2, h3, h4⟩
  · rintro ⟨h1, h2, h3, h4⟩
    intro a ha
    simp only [dropoutOps, List.mem_cons, List.not_mem_nil, or_false] at ha
    simp only [decide_eq_true_eq]
    push_neg
    rcases ha with rfl | rfl | rfl | rfl
    · exact h1
    · exact h2
    · exact h3
    · exact h4

/-- Witness for C7: a match covering all four dropout operators is accepted. -/
theorem claim_C7_witness :
    _is_dropout_filter dropoutMatchExample [] [] = true :=
  (claim_C7 dropoutMatchExample [] []).mpr (by decide)

theorem getNode?_map_data (g : Graph) (i : Nat) (f : NodeData → NodeData) :
    getNode? (g.map (fun p => (p.1, f p.2))) i = (getNode? g i).map f := by
  induction g with
  | nil => rfl
  | cons x rest ih =>
    obtain ⟨j, nd⟩ := x
    by_cases hj : j = i <;> simp [getNode?, hj, ih]

theorem remove_tensor_overload_eq (g : Graph) :
    remove_tensor_overload_for_qdq_ops g =
      g.map (fun p => (p.1, canonNode p.2)) := by
  unfold remove_tensor_overload_for_qdq_ops canonNode
  apply List.map_congr_left
  intro p _
  by_cases hop : p.2.op = .call_function
  · cases hl : lookupTarget qdqOverloadMap p.2.target <;> simp [hop, hl]
  · simp [hop]

theorem lookupTarget_eq_none (l : List (Target × Target)) (t : Target)
    (h : t ∉ l.map Prod.fst) : lookupTarget l t = Option.none := by
  induction l with
  | nil => rfl
  | cons x rest ih =>
    simp only [List.map_cons, List.mem_cons] at h
    push_neg at h
    simp only [lookupTarget]
    rw [if_neg (fun he => h.1 he.symm)]
    exact ih h.2

/-- C8: overload canonicalization replaces, on every `call_function` node,
each of the nine overload-suffixed targets of the substitution table by its
overload-free identifier, leaves every target outside the table unchanged,
touches nothing else of the node, and leaves non-`call_function` nodes
entirely unchanged. -/
theorem claim_C8 (g : Graph) (i : Nat) (nd : NodeData)
    (h : getNode? g i = some nd) :
    getNode? (remove_tensor_overload_for_qdq_ops g) i = some (canonNode nd) ∧
    (canonNode nd).op = nd.op ∧
    (canonNode nd).args = nd.args ∧
    (canonNode nd).kwargs = nd.kwargs ∧
    (nd.op = .call_function →
      ((nd.target = .q_per_tensor_default →
         (canonNode nd).target = .q_per_tensor) ∧
       (nd.target = .dq_per_tensor_default →
         (canonNode nd).target = .dq_per_tensor) ∧
       (nd.target = .q_per_tensor_tensor →
         (canonNode nd).target = .q_per_tensor) ∧
       (nd.target = .dq_per_tensor_tensor →
         (canonNode nd).target = .dq_per_tensor) ∧
       (nd.target = .q_per_tensor_tensor2 →
         (canonNode nd).target = .q_per_tensor) ∧
       (nd.target = .dq_per_tensor_tensor2 →
         (canonNode nd).target = .dq_per_tensor) ∧
       (nd.target = .q_per_channel_default →
         (canonNode nd).target = .q_per_channel) ∧
       (nd.target = .dq_per_channel_default →
         (canonNode nd).target = .dq_per_channel) ∧
       (nd.target = .clamp_Tensor → (canonNode nd).target = .clamp) ∧
       (nd.target ∉ qdqOverloadMap.map Prod.fst →
         (canonNode nd).target = nd.target))) ∧
    (nd.op ≠ .call_function → canonNode nd = nd) := by
  refine ⟨?_, ?_, ?_, ?_, ?_, ?_⟩
  · rw [remove_tensor_overload_eq, getNode?_map_data, h]
    rfl
  · by_cases hop : nd.op = .call_function
    · cases hl : lookupTarget qdqOverloadMap nd.target <;>
        simp [canonNode, hop, hl]
    · simp [canonNode, hop]
  · by_cases hop : nd.op = .call_function
    · cases hl : lookupTarget qdqOverloadMap nd.target <;>
        simp [canonNode, hop, hl]
    · simp [canonNode, hop]
  · by_cases hop : nd.op = .call_function
    · cases hl : lookupTarget qdqOverloadMap nd.target <;>
        simp [canonNode, hop, hl]
    · simp [canonNode, hop]
  · intro hop
    have hc : ∀ t, lookupTarget qdqOverloadMap nd.target = some t →
        (canonNode nd).target = t := by
      intro t hl
      simp [canonNode, hop, hl]
    have hn : nd.target ∉ qdqOverloadMap.map Prod.fst →
        (canonNode nd).target = nd.target := by
      intro hm
      simp [canonNode, hop, lookupTarget_eq_none _ _ hm]
    exact ⟨fun ht => hc _ (by rw [ht]; rfl), fun ht => hc _ (by rw [ht]; rfl),
           fun ht => hc _ (by rw [ht]; rfl), fun ht => hc _ (by rw [ht]; rfl),
           fun ht => hc _ (by rw [ht]; rfl), fun ht => hc _ (by rw [ht]; rfl),
           fun ht => hc _ (by rw [ht]; rfl), fun ht => hc _ (by rw [ht]; rfl),
           fun ht => hc _ (by rw [ht]; rfl), hn⟩
  · intro hop
    simp [canonNode, hop]

/-- Witness for C8: the `tensor2` overload of quantize-per-tensor is
canonicalized to the overload-free identifier. -/
theorem claim_C8_witness :
    getNode? (remove_tensor_overload_for_qdq_ops qdqExampleGraph) 0 =
      some (canonNode ⟨.call_function, .q_per_tensor_tensor2, [], []⟩) ∧
    (canonNode
      (⟨.call_function, .q_per_tensor_tensor2, [], []⟩ : NodeData)).target =
      .q_per_tensor := by
  have h := claim_C8 qdqExampleGraph 0
    ⟨.call_function, .q_per_tensor_tensor2, [], []⟩ rfl
  exact ⟨h.1, (h.2.2.2.2.1 rfl).2.2.2.2.1 rfl⟩

theorem lookupKw_setattr_self (m : Store) (s : String) (t : Tensor) :
    lookupKw (setattrStore m s t) s = some t := by
  induction m with
  | nil => simp [setattrStore, lookupKw]
  | cons kv rest ih =>
    obtain ⟨k, v⟩ := kv
    by_cases hk : k = s
    · subst hk
      simp [setattrStore, lookupKw]
    · simp [setattrStore, lookupKw, hk, ih]

theorem lookupKw_setattr_ne (m : Store) (s s' : String) (t : Tensor)
    (h : s' ≠ s) :
    lookupKw (setattrStore m s t) s' = lookupKw m s' := by
  have h2 : ¬ s = s' := fun he => h he.symm
  induction m with
  | nil => simp [setattrStore, lookupKw, h2]
  | cons kv rest ih =>
    obtain ⟨k, v⟩ := kv
    by_cases hk : k = s
    · subst hk
      simp [setattrStore, lookupKw, h2]
    · by_cases hk2 : k = s'
      · subst hk2
        simp [setattrStore, lookupKw, hk]
      · simp [setattrStore, lookupKw, hk, hk2, ih]

theorem ne_append_bias (s : String) : s ≠ s ++ "_bias" := by
  intro h
  have hlen := congrArg String.length h
  rw [String.length_append] at hlen
  simp at hlen
  exact absurd hlen (by decide)

/-- C2: in `fold_bn_weights_into_conv_node` — with every read-only resolution
step pinned by hypothesis — the eps value entering the fusion is the resolved
argument at index 6 for the "no-training" batch-norm target and at index 7
for the "training" target (it lands as the eps operand of the fused weight
stored under the convolution's weight attribute), and for any other target
that declares a schema the function raises the fatal `ValueError` instead of
returning, hence before any graph or parameter mutation. -/
theorem claim_C2 (g : Graph) (m : Store) (conv_id : Nat) (wv bv : Value)
    (bn_id : Nat) (conv bn : NodeData)
    (hc : getNode? g conv_id = some conv)
    (hb : getNode? g bn_id = some bn)
    (cw cb : Option Tensor)
    (hw : _get_tensor_constant_from_node wv g m = .ok cw)
    (hcb : _get_tensor_constant_from_node bv g m = .ok cb)
    (tr : Value) (htr : conv.args.get? 6 = some tr)
    (sch : List ArgumentV) (hsch : targetSchema bn.target = some sch)
    (v1 v2 v3 v4 : Value) (bw bb brm brv : Option Tensor)
    (hv1 : (_get_all_arguments bn.args bn.kwargs sch).get? 1 = some v1)
    (ht1 : _get_tensor_constant_from_node v1 g m = .ok bw)
    (hv2 : (_get_all_arguments bn.args bn.kwargs sch).get? 2 = some v2)
    (ht2 : _get_tensor_constant_from_node v2 g m = .ok bb)
    (hv3 : (_get_all_arguments bn.args bn.kwargs sch).get? 3 = some v3)
    (ht3 : _get_tensor_constant_from_node v3 g m = .ok brm)
    (hv4 : (_get_all_arguments bn.args bn.kwargs sch).get? 4 = some v4)
    (ht4 : _get_tensor_constant_from_node v4 g m = .ok brv) :
    (bn.target ≠ .bn_no_training → bn.target ≠ .bn_training →
      fold_bn_weights_into_conv_node conv_id wv bv bn_id g m =
        .error .valueError) ∧
    (bn.target = .bn_no_training → bv = .none →
      ∀ wid wnd wname, wv = .node wid → getNode? g wid = some wnd →
        wnd.target = .attr wname →
      ∀ g' m',
        fold_bn_weights_into_conv_node conv_id wv bv bn_id g m =
          .ok (g', m') →
        ∃ eps, (_get_all_arguments bn.args bn.kwargs sch).get? 6 = some eps ∧
          lookupKw m' wname = some (.fusedWeight (optTensor cw) (optTensor cb)
            (optTensor brm) (optTensor brv) eps (optTensor bw) (optTensor bb)
            tr)) ∧
    (bn.target = .bn_training → bv = .none →
      ∀ wid wnd wname, wv = .node wid → getNode? g wid = some wnd →
        wnd.target = .attr wname →
      ∀ g' m',
        fold_bn_weights_into_conv_node conv_id wv bv bn_id g m =
          .ok (g', m') →
        ∃ eps, (_get_all_arguments bn.args bn.kwargs sch).get? 7 = some eps ∧
          lookupKw m' wname = some (.fusedWeight (optTensor cw) (optTensor cb)
            (optTensor brm) (optTensor brv) eps (optTensor bw) (optTensor bb)
            tr)) := by
  have hunf : fold_bn_weights_into_conv_node conv_id wv bv bn_id g m =
      foldAfterReads conv_id wv bv bn_id g m conv bn cw cb tr
        (_get_all_arguments bn.args bn.kwargs sch) bw bb brm brv := by
    unfold fold_bn_weights_into_conv_node
    rw [hc, hb]
    simp only [hw, hcb, htr, hsch, hv1, ht1, hv2, ht2, hv3, ht3, hv4, ht4]
  refine ⟨?_, ?_, ?_⟩
  · intro hn1 hn2
    rw [hunf]
    unfold foldAfterReads
    rw [if_neg hn1, if_neg hn2]
  · intro ht hbv wid wnd wname hwv hwnd hwa g' m' hres
    rw [hunf] at hres
    unfold foldAfterReads at hres
    rw [if_pos ht] at hres
    have hsch7 : sch.length = 7 := by
      rw [ht] at hsch
      injection hsch with hs
      rw [← hs]
      rfl
    have hlen : (_get_all_arguments bn.args bn.kwargs sch).length = 7 := by
      rw [_get_all_arguments, getAllArgumentsFrom_length, hsch7]
    cases heps : (_get_all_arguments bn.args bn.kwargs sch).get? 6 with
    | none =>
      have := List.get?_eq_none.mp heps
      omega
    | some eps =>
      refine ⟨eps, rfl, ?_⟩
      simp only [heps, hwv, hwnd, hwa, hbv] at hres
      cases hrw : rewireGetitemUsers bn_id conv_id
          (setNodeArgs (insertBefore g conv_id
            (freshId g, ⟨.get_attr, .attr (wname ++ "_bias"), [], []⟩))
            conv_id (conv.args.set 2 (.node (freshId g)))) with
      | error e =>
        simp only [hrw] at hres
        exact Except.noConfusion hres
      | ok g3 =>
        simp only [hrw] at hres
        have hm' : setattrStore (setattrStore m wname
            (fuse_conv_bn_weights cw cb brm brv eps bw bb tr).1)
            (wname ++ "_bias")
            (fuse_conv_bn_weights cw cb brm brv eps bw bb tr).2 = m' := by
          injection hres with h1
          exact congrArg Prod.snd h1
        rw [← hm', lookupKw_setattr_ne _ _ _ _ (ne_append_bias wname),
          lookupKw_setattr_self]
        rfl
  · intro ht hbv wid wnd wname hwv hwnd hwa g' m' hres
    rw [hunf] at hres
    unfold foldAfterReads at hres
    rw [if_neg (by rw [ht]; intro h; cases h), if_pos ht] at hres
    have hsch8 : sch.length = 8 := by
      rw [ht] at hsch
      injection hsch with hs
      rw [← hs]
      rfl
    have hlen : (_get_all_arguments bn.args bn.kwargs sch).length = 8 := by
      rw [_get_all_arguments, getAllArgumentsFrom_length, hsch8]
    cases heps : (_get_all_arguments bn.args bn.kwargs sch).get? 7 with
    | none =>
      have := List.get?_eq_none.mp heps
      omega
    | some eps =>
      refine ⟨eps, rfl, ?_⟩
      simp only [heps, hwv, hwnd, hwa, hbv] at hres
      cases hrw : rewireGetitemUsers bn_id conv_id
          (setNodeArgs (insertBefore g conv_id
            (freshId g, ⟨.get_attr, .attr (wname ++ "_bias"), [], []⟩))
            conv_id (conv.args.set 2 (.node (freshId g)))) with
      | error e =>
        simp only [hrw] at hres
        exact Except.noConfusion hres
      | ok g3 =>
        simp only [hrw] at hres
        have hm' : setattrStore (setattrStore m wname
            (fuse_conv_bn_weights cw cb brm brv eps bw bb tr).1)
            (wname ++ "_bias")
            (fuse_conv_bn_weights cw cb brm brv eps bw bb tr).2 = m' := by
          injection hres with h1
          exact congrArg Prod.snd h1
        rw [← hm', lookupKw_setattr_ne _ _ _ _ (ne_append_bias wname),
          lookupKw_setattr_self]
        rfl

/-- Witness for C2 on the concrete example pair (no-training variant, eps
resolved from index 6). -/
theorem claim_C2_witness :
    ∃ eps,
      (_get_all_arguments
        [Value.node 2, .node 3, .node 4, .node 5, .node 6, .num 1, .num 2]
        [] (targetSchema .bn_no_training).get!).get? 6 = some eps ∧
      lookupKw convBnFusedStore "conv_w" = some (.fusedWeight
        (optTensor (some (.base "cw"))) (optTensor Option.none)
        (optTensor (some (.base "brm"))) (optTensor (some (.base "brv")))
        eps (optTensor (some (.base "bw"))) (optTensor (some (.base "bb")))
        (.bool false)) := by
  have h := claim_C2 convBnGraph convBnStore 2 (.node 1) .none 7
    (⟨.call_function, .convolution,
      [.node 0, .node 1, .none, .num 1, .num 0, .num 1, .bool false], []⟩)
    (⟨.call_function, .bn_no_training,
      [.node 2, .node 3, .node 4, .node 5, .node 6, .num 1, .num 2], []⟩)
    rfl rfl (some (.base "cw")) Option.none rfl rfl (.bool false) rfl
    (targetSchema .bn_no_training).get! rfl
    (.node 3) (.node 4) (.node 5) (.node 6)
    (some (.base "bw")) (some (.base "bb")) (some (.base "brm"))
    (some (.base "brv")) rfl rfl rfl rfl rfl rfl rfl rfl
  exact h.2.1 rfl rfl 1
    (⟨.get_attr, .attr "conv_w", [], []⟩) "conv_w" rfl rfl rfl
    convBnFoldedGraph convBnFusedStore (by decide)

mutual

theorem substValueSet_nil (c : Nat) : (v : Value) →
    substValueSet [] c v = v
  | .node j => by simp [substValueSet]
  | .num n => rfl
  | .bool b => rfl
  | .str s => rfl
  | .none => rfl
  | .tuple vs => by rw [substValueSet, substValueListSet_nil c vs]

theorem substValueListSet_nil (c : Nat) : (vs : List Value) →
    substValueListSet [] c vs = vs
  | [] => rfl
  | v :: vs => by
    rw [substValueListSet, substValueSet_nil c v, substValueListSet_nil c vs]

end

theorem kwargs_map_substValueSet_nil (c : Nat)
    (l : List (String × Value)) :
    l.map (fun kv => (kv.1, substValueSet [] c kv.2)) = l := by
  induction l with
  | nil => rfl
  | cons kv rest ih => simp [substValueSet_nil, ih]

theorem substNodeSet_nil (c : Nat) (nd : NodeData) :
    substNodeSet [] c nd = nd := by
  unfold substNodeSet
  rw [substValueListSet_nil, kwargs_map_substValueSet_nil]

theorem redirectUsers_nil (c : Nat) (g : Graph) :
    redirectUsers [] c g = g := by
  unfold redirectUsers
  induction g with
  | nil => rfl
  | cons p rest ih =>
    simp only [List.map_cons]
    have h1 : (if p.1 ∈ ([] : List Nat) then p
        else (p.1, substNodeSet [] c p.2)) = p := by
      rw [if_neg (List.not_mem_nil p.1), substNodeSet_nil]
    rw [h1, ih]

mutual

theorem substValueSet_congr (S1 S2 : List Nat) (c : Nat)
    (h : ∀ u, u ∈ S1 ↔ u ∈ S2) : (v : Value) →
    substValueSet S1 c v = substValueSet S2 c v
  | .node j => by
    by_cases hj : j ∈ S1
    · simp only [substValueSet]
      rw [if_pos hj, if_pos ((h j).mp hj)]
    · simp only [substValueSet]
      rw [if_neg hj, if_neg (fun hh => hj ((h j).mpr hh))]
  | .num n => rfl
  | .bool b => rfl
  | .str s => rfl
  | .none => rfl
  | .tuple vs => by
    simp only [substValueSet]
    rw [substValueListSet_congr S1 S2 c h vs]

theorem substValueListSet_congr (S1 S2 : List Nat) (c : Nat)
    (h : ∀ u, u ∈ S1 ↔ u ∈ S2) : (l : List Value) →
    substValueListSet S1 c l = substValueListSet S2 c l
  | [] => rfl
  | v :: vs => by
    simp only [substValueListSet]
    rw [substValueSet_congr S1 S2 c h v, substValueListSet_congr S1 S2 c h vs]

end

theorem substNodeSet_congr (S1 S2 : List Nat) (c : Nat)
    (h : ∀ u, u ∈ S1 ↔ u ∈ S2) (nd : NodeData) :
    substNodeSet S1 c nd = substNodeSet S2 c nd := by
  unfold substNodeSet
  rw [substValueListSet_congr S1 S2 c h]
  have : nd.kwargs.map (fun kv => (kv.1, substValueSet S1 c kv.2)) =
      nd.kwargs.map (fun kv => (kv.1, substValueSet S2 c kv.2)) := by
    apply List.map_congr_left
    intro kv _
    rw [substValueSet_congr S1 S2 c h]
  rw [this]

theorem redirectUsers_congr (S1 S2 : List Nat) (c : Nat)
    (h : ∀ u, u ∈ S1 ↔ u ∈ S2) (g : Graph) :
    redirectUsers S1 c g = redirectUsers S2 c g := by
  unfold redirectUsers
  apply List.map_congr_left
  intro p _
  by_cases hp : p.1 ∈ S1
  · rw [if_pos hp, if_pos ((h p.1).mp hp)]
  · rw [if_neg hp, if_neg (fun hh => hp ((h p.1).mpr hh)),
      substNodeSet_congr S1 S2 c h]

mutual

theorem substValue_substValueSet (S : List Nat) (u c : Nat) : (v : Value) →
    substValue u c (substValueSet S c v) = substValueSet (S ++ [u]) c v
  | .node j => by
    by_cases hjS : j ∈ S
    · have hj2 : j ∈ S ++ [u] := List.mem_append_left _ hjS
      simp only [substValueSet, substValue]
      rw [if_pos hjS, if_pos hj2]
      simp only [substValue, ite_self]
    · by_cases hju : j = u
      · subst hju
        have hj2 : j ∈ S ++ [j] := by simp
        simp only [substValueSet, substValue]
        rw [if_neg hjS, if_pos hj2]
        simp [substValue]
      · have hj2 : j ∉ S ++ [u] := by simp [hjS, hju]
        simp only [substValueSet, substValue]
        rw [if_neg hjS, if_neg hj2]
        simp [substValue, hju]
  | .num n => rfl
  | .bool b => rfl
  | .str s => rfl
  | .none => rfl
  | .tuple vs => by
    simp only [substValueSet, substValue]
    rw [substValueList_substValueListSet S u c vs]

theorem substValueList_substValueListSet (S : List Nat) (u c : Nat) :
    (l : List Value) →
    substValueList u c (substValueListSet S c l) =
      substValueListSet (S ++ [u]) c l
  | [] => rfl
  | v :: vs => by
    simp only [substValueListSet, substValueList]
    rw [substValue_substValueSet S u c v,
      substValueList_substValueListSet S u c vs]

end

theorem substValueListSet_get? (S : List Nat) (c : Nat) (l : List Value)
    (i : Nat) :
    (substValueListSet S c l).get? i = (l.get? i).map (substValueSet S c) := by
  induction l generalizing i with
  | nil => simp [substValueListSet]
  | cons v vs ih =>
    cases i with
    | zero => simp [substValueListSet]
    | succ k => simpa [substValueListSet] using ih k

theorem substValueSet_num_iff (S : List Nat) (c : Nat) (v : Value) (n : Int) :
    substValueSet S c v = .num n ↔ v = .num n := by
  cases v <;> simp [substValueSet]
  split <;> simp

theorem getNode?_mapNodes (f : Nat → NodeData → NodeData) (g : Graph)
    (i : Nat) :
    getNode? (g.map (fun p => (p.1, f p.1 p.2))) i =
      (getNode? g i).map (f i) := by
  induction g with
  | nil => rfl
  | cons x rest ih =>
    obtain ⟨j, nd⟩ := x
    by_cases hj : j = i
    · subst hj
      simp [getNode?]
    · simp [getNode?, hj, ih]

theorem redirectUsers_eq_map (S : List Nat) (c : Nat) (g : Graph) :
    redirectUsers S c g =
      g.map (fun p =>
        (p.1, if p.1 ∈ S then p.2 else substNodeSet S c p.2)) := by
  unfold redirectUsers
  apply List.map_congr_left
  intro p _
  by_cases hp : p.1 ∈ S <;> simp [hp]

theorem getNode?_redirectUsers (S : List Nat) (c : Nat) (g : Graph)
    (i : Nat) :
    getNode? (redirectUsers S c g) i =
      (getNode? g i).map
        (fun nd => if i ∈ S then nd else substNodeSet S c nd) := by
  rw [redirectUsers_eq_map]
  exact getNode?_mapNodes (fun j nd => if j ∈ S then nd else substNodeSet S c nd) g i

theorem setNodeArgs_eq_map (g : Graph) (i : Nat) (args : List Value) :
    setNodeArgs g i args =
      g.map (fun p =>
        (p.1, if p.1 = i then { p.2 with args := args } else p.2)) := by
  unfold setNodeArgs
  apply List.map_congr_left
  intro p _
  by_cases hp : p.1 = i <;> simp [hp]

theorem getNode?_setNodeArgs (g : Graph) (i j : Nat) (args : List Value) :
    getNode? (setNodeArgs g i args) j =
      (getNode? g j).map
        (fun nd => if j = i then { nd with args := args } else nd) := by
  rw [setNodeArgs_eq_map]
  exact getNode?_mapNodes
    (fun k nd => if k = i then { nd with args := args } else nd) g j

theorem ids_map_nodes (f : Nat → NodeData → NodeData) (g : Graph) :
    (g.map (fun p => (p.1, f p.1 p.2))).map Prod.fst = g.map Prod.fst := by
  rw [List.map_map]
  rfl

theorem ids_redirectUsers (S : List Nat) (c : Nat) (g : Graph) :
    (redirectUsers S c g).map Prod.fst = g.map Prod.fst := by
  rw [redirectUsers_eq_map, List.map_map]
  rfl

theorem ids_setNodeArgs (g : Graph) (i : Nat) (args : List Value) :
    (setNodeArgs g i args).map Prod.fst = g.map Prod.fst := by
  rw [setNodeArgs_eq_map, List.map_map]
  rfl

theorem getNode?_of_mem_nodup (g : Graph) (i : Nat) (nd : NodeData)
    (hmem : (i, nd) ∈ g) (hnodup : (g.map Prod.fst).Nodup) :
    getNode? g i = some nd := by
  induction g with
  | nil => cases hmem
  | cons x rest ih =>
    obtain ⟨j, d⟩ := x
    rcases List.mem_cons.mp hmem with he | hm
    · injection he with h1 h2
      subst h1
      subst h2
      simp [getNode?]
    · have hj : j ≠ i := by
        intro he
        subst he
        have : j ∈ rest.map Prod.fst :=
          List.mem_map.mpr ⟨(j, nd), hm, rfl⟩
        exact (List.nodup_cons.mp hnodup).1 this
      have := ih hm (List.nodup_cons.mp hnodup).2
      simpa [getNode?, hj] using this

theorem getNode?_eq_none_of_not_mem (g : Graph) (i : Nat)
    (h : i ∉ g.map Prod.fst) : getNode? g i = Option.none := by
  induction g with
  | nil => rfl
  | cons x rest ih =>
    simp only [List.map_cons, List.mem_cons] at h
    push_neg at h
    simp only [getNode?]
    rw [if_neg (fun he => h.1 he.symm)]
    exact ih h.2

theorem mem_ids_of_getNode? (g : Graph) (i : Nat) (nd : NodeData)
    (h : getNode? g i = some nd) : i ∈ g.map Prod.fst :=
  List.mem_map.mpr ⟨(i, nd), getNode?_mem g i nd h, rfl⟩

theorem le_freshId_aux (g : Graph) (p : Nat × NodeData) (hp : p ∈ g) :
    p.1 ≤ g.foldr (fun q acc => max q.1 acc) 0 := by
  induction g with
  | nil => cases hp
  | cons x rest ih =>
    rcases List.mem_cons.mp hp with he | hm
    · subst he
      simp [Nat.le_max_left]
    · simp only [List.foldr_cons]
      exact le_trans (ih hm) (Nat.le_max_right _ _)

theorem lt_freshId_of_mem (g : Graph) (p : Nat × NodeData) (hp : p ∈ g) :
    p.1 < freshId g :=
  Nat.lt_succ_of_le (le_freshId_aux g p hp)

theorem freshId_not_mem (g : Graph) : freshId g ∉ g.map Prod.fst := by
  intro h
  obtain ⟨p, hp, hfst⟩ := List.mem_map.mp h
  have := lt_freshId_of_mem g p hp
  omega

theorem ids_insertBefore (g : Graph) (a : Nat) (n : Nat × NodeData)
    (i : Nat) :
    i ∈ (insertBefore g a n).map Prod.fst ↔
      i = n.1 ∨ i ∈ g.map Prod.fst := by
  induction g with
  | nil => simp [insertBefore]
  | cons x rest ih =>
    by_cases hx : x.1 = a
    · simp [insertBefore, hx, List.mem_cons]
    · simp only [insertBefore, if_neg hx, List.map_cons, List.mem_cons, ih]
      tauto

theorem getNode?_insertBefore (g : Graph) (a : Nat) (n : Nat × NodeData)
    (hn : n.1 ∉ g.map Prod.fst) (i : Nat) :
    getNode? (insertBefore g a n) i =
      if i = n.1 then some n.2 else getNode? g i := by
  induction g with
  | nil =>
    by_cases hi : i = n.1
    · subst hi
      simp [insertBefore, getNode?]
    · simp only [insertBefore, getNode?]
      rw [if_neg (fun he => hi he.symm), if_neg hi]
  | cons x rest ih =>
    simp only [List.map_cons, List.mem_cons] at hn
    push_neg at hn
    by_cases hx : x.1 = a
    · simp only [insertBefore, if_pos hx, getNode?]
      by_cases hi : i = n.1
      · subst hi
        simp
      · rw [if_neg (fun he => hi he.symm), if_neg hi]
    · simp only [insertBefore, if_neg hx, getNode?]
      by_cases hxi : x.1 = i
      · subst hxi
        rw [if_pos rfl, if_neg (fun he => hn.1 he.symm), if_pos rfl]
      · rw [if_neg hxi, ih hn.2]
        by_cases hi : i = n.1
        · rw [if_pos hi, if_pos hi]
        · rw [if_neg hi, if_neg hi, if_neg hxi]

theorem nodup_insertBefore (g : Graph) (a : Nat) (n : Nat × NodeData)
    (hn : n.1 ∉ g.map Prod.fst) (hnodup : (g.map Prod.fst).Nodup) :
    ((insertBefore g a n).map Prod.fst).Nodup := by
  induction g with
  | nil => simp [insertBefore]
  | cons x rest ih =>
    simp only [List.map_cons, List.mem_cons] at hn
    push_neg at hn
    rcases List.nodup_cons.mp hnodup with ⟨hx, hrest⟩
    by_cases hxa : x.1 = a
    · simp only [insertBefore, if_pos hxa, List.map_cons]
      refine List.nodup_cons.mpr ⟨?_, hnodup⟩
      simp only [List.mem_cons]
      push_neg
      exact ⟨fun he => hn.1 he, fun hm => hn.2 hm⟩
    · simp only [insertBefore, if_neg hxa, List.map_cons]
      refine List.nodup_cons.mpr ⟨?_, ih hn.2 hrest⟩
      intro hm
      rcases (ids_insertBefore rest a n x.1).mp hm with he | hmem
      · exact hn.1 he.symm
      · exact hx hmem

theorem insertBefore_adjacent (g : Graph) (a : Nat) (n : Nat × NodeData)
    (ha : a ∈ g.map Prod.fst) :
    ∃ k, ((insertBefore g a n).map Prod.fst).get? k = some n.1 ∧
      ((insertBefore g a n).map Prod.fst).get? (k + 1) = some a := by
  induction g with
  | nil => simp at ha
  | cons x rest ih =>
    by_cases hx : x.1 = a
    · refine ⟨0, ?_, ?_⟩ <;> simp [insertBefore, hx]
    · have ha' : a ∈ rest.map Prod.fst := by
        simp only [List.map_cons, List.mem_cons] at ha
        rcases ha with he | hm
        · exact absurd he.symm hx
        · exact hm
      obtain ⟨k, h1, h2⟩ := ih ha'
      exact ⟨k + 1, by simpa [insertBefore, hx] using h1,
        by simpa [insertBefore, hx] using h2⟩

theorem replace_redirect_step (g : Graph) (S : List Nat) (u c : Nat)
    (hfixu : ∀ p ∈ g, p.1 = u → substNodeSet S c p.2 = p.2)
    (hfixS : ∀ p ∈ g, p.1 ∈ S →
      substValueList u c p.2.args = p.2.args ∧
      p.2.kwargs.map (fun kv => (kv.1, substValue u c kv.2)) = p.2.kwargs) :
    replace_all_uses_with u c (redirectUsers S c g) =
      redirectUsers (S ++ [u]) c g := by
  unfold replace_all_uses_with redirectUsers
  rw [List.map_map]
  apply List.map_congr_left
  intro p hp
  simp only [Function.comp_apply]
  by_cases hpS : p.1 ∈ S
  · rw [if_pos hpS]
    by_cases hpu : p.1 = u
    · rw [if_pos hpu, if_pos (List.mem_append_left _ hpS)]
    · rw [if_neg hpu, if_pos (List.mem_append_left _ hpS)]
      obtain ⟨ha, hk⟩ := hfixS p hp hpS
      rw [ha, hk]
  · rw [if_neg hpS]
    by_cases hpu : p.1 = u
    · rw [if_pos hpu, if_pos (by simp [hpu] : p.1 ∈ S ++ [u])]
      rw [hfixu p hp hpu]
    · rw [if_neg hpu, if_neg (by simp [hpS, hpu] : ¬ p.1 ∈ S ++ [u])]
      unfold substNodeSet
      simp only [List.map_map]
      rw [substValueList_substValueListSet]
      have hkw : p.2.kwargs.map
          ((fun kv => (kv.1, substValue u c kv.2)) ∘
            (fun kv => (kv.1, substValueSet S c kv.2))) =
          p.2.kwargs.map (fun kv => (kv.1, substValueSet (S ++ [u]) c kv.2)) := by
        apply List.map_congr_left
        intro kv _
        simp only [Function.comp_apply]
        rw [substValue_substValueSet]
      rw [hkw]

theorem mem_usersOf_iff (g : Graph) (B u : Nat) :
    u ∈ usersOf g B ↔
      ∃ nd, (u, nd) ∈ g ∧ referencesNode nd B = true := by
  unfold usersOf
  simp only [List.mem_map, List.mem_filter]
  constructor
  · rintro ⟨p, ⟨hp, href⟩, he⟩
    exact ⟨p.2, by rwa [show (u, p.2) = p from by rw [← he]], href⟩
  · rintro ⟨nd, hmem, href⟩
    exact ⟨(u, nd), ⟨hmem, href⟩, rfl⟩

theorem mem_getitem0Users_iff (g : Graph) (B u : Nat) :
    u ∈ getitem0Users g B ↔
      ∃ nd, (u, nd) ∈ g ∧ isGetitem0Accessor B nd = true := by
  unfold getitem0Users
  simp only [List.mem_map, List.mem_filter]
  constructor
  · rintro ⟨p, ⟨hp, hacc⟩, he⟩
    exact ⟨p.2, by rwa [show (u, p.2) = p from by rw [← he]], hacc⟩
  · rintro ⟨nd, hmem, hacc⟩
    exact ⟨(u, nd), ⟨hmem, hacc⟩, rfl⟩

theorem isGetitem0Accessor_iff (B : Nat) (nd : NodeData) :
    isGetitem0Accessor B nd = true ↔
      referencesNode nd B = true ∧ nd.op = .call_function ∧
      nd.target = .getitem ∧ nd.args.get? 1 = some (Value.num 0) := by
  unfold isGetitem0Accessor
  simp [Bool.and_eq_true, and_assoc]

theorem getitem0Users_subset_usersOf (g : Graph) (B u : Nat)
    (h : u ∈ getitem0Users g B) : u ∈ usersOf g B := by
  obtain ⟨nd, hmem, hacc⟩ := (mem_getitem0Users_iff g B u).mp h
  exact (mem_usersOf_iff g B u).mpr
    ⟨nd, hmem, ((isGetitem0Accessor_iff B nd).mp hacc).1⟩

theorem rewireLoop_redirect (g0 : Graph) (B c : Nat)
    (hnodup : (g0.map Prod.fst).Nodup)
    (hsh : ∀ p ∈ g0, p.1 ∈ getitem0Users g0 B →
      p.2.args = [Value.node B, Value.num 0] ∧ p.2.kwargs = [])
    (hB : B ∉ getitem0Users g0 B)
    (hD : ∀ p ∈ g0, referencesNode p.2 B = true →
      p.2.op = .call_function → p.2.target = .getitem →
      p.2.args.get? 1 ≠ Option.none) :
    ∀ (l : List Nat) (S : List Nat),
      (∀ u ∈ l, u ∈ usersOf g0 B) →
      (∀ u ∈ S, u ∈ getitem0Users g0 B) →
      rewireLoop c l (redirectUsers S c g0) =
        .ok (redirectUsers
          (S ++ l.filter (fun u => decide (u ∈ getitem0Users g0 B))) c g0) := by
  intro l
  induction l with
  | nil =>
    intro S hl hS
    simp [rewireLoop]
  | cons u l ih =>
    intro S hl hS
    have hu : u ∈ usersOf g0 B := hl u (List.mem_cons_self _ _)
    obtain ⟨nd0, hmem0, href⟩ := (mem_usersOf_iff g0 B u).mp hu
    have hget0 : getNode? g0 u = some nd0 :=
      getNode?_of_mem_nodup _ _ _ hmem0 hnodup
    have hgetCur : getNode? (redirectUsers S c g0) u =
        some (if u ∈ S then nd0 else substNodeSet S c nd0) := by
      rw [getNode?_redirectUsers, hget0]
      rfl
    have hBS : B ∉ S := fun hBS => hB (hS B hBS)
    by_cases hus : u ∈ getitem0Users g0 B
    · -- the accessor case: the node is replaced
      obtain ⟨nd', hmem', hacc'⟩ := (mem_getitem0Users_iff g0 B u).mp hus
      have : getNode? g0 u = some nd' :=
        getNode?_of_mem_nodup _ _ _ hmem' hnodup
      have hnd' : nd' = nd0 := by
        rw [this] at hget0
        injection hget0
      subst hnd'
      have hshape := hsh (u, nd') hmem' hus
      have hacc := (isGetitem0Accessor_iff B nd').mp hacc'
      have hfix0 : substNodeSet S c nd' = nd' := by
        unfold substNodeSet
        rw [hshape.1, hshape.2]
        have hargs : substValueListSet S c [Value.node B, Value.num 0] =
            [Value.node B, Value.num 0] := by
          simp [substValueListSet, substValueSet, hBS]
        rw [hargs]
        simp only [List.map_nil]
        cases nd'
        simp only at hshape
        rw [hshape.1, hshape.2]
      have hdata : (if u ∈ S then nd' else substNodeSet S c nd') = nd' := by
        rw [hfix0, ite_self]
      rw [hdata] at hgetCur
      unfold rewireLoop
      simp only [hgetCur]
      rw [if_pos hacc.2.1, if_pos hacc.2.2.1]
      simp only [hacc.2.2.2, if_true]
      have hstep := replace_redirect_step g0 S u c
        (fun p hp hpu => by
          have : getNode? g0 p.1 = some p.2 :=
            getNode?_of_mem_nodup _ _ _ (by rwa [← Prod.mk.eta (p := p)] at hp) hnodup
          rw [hpu] at this
          rw [hget0] at this
          injection this with hh
          rw [hh] at hfix0
          exact hfix0)
        (fun p hp hpS => by
          have hpus := hS p.1 hpS
          have hpsh := hsh p hp hpus
          have huB : u ≠ B := fun he => hB (he ▸ hus)
          have hBu : ¬ B = u := fun he => huB he.symm
          constructor
          · rw [hpsh.1]
            simp [substValueList, substValue, hBu]
          · rw [hpsh.2]
            rfl)
      rw [hstep]
      rw [ih (S ++ [u]) (fun x hx => hl x (List.mem_cons_of_mem _ hx))
        (fun x hx => by
          rcases List.mem_append.mp hx with hxS | hxu
          · exact hS x hxS
          · rw [List.mem_singleton.mp hxu]
            exact hus)]
      have hfl : List.filter (fun x => decide (x ∈ getitem0Users g0 B))
          (u :: l) = u :: List.filter
            (fun x => decide (x ∈ getitem0Users g0 B)) l := by
        simp [List.filter_cons, hus]
      rw [hfl]
      simp [List.append_assoc]
    · -- the non-accessor case: the node is skipped
      have huS : u ∉ S := fun huS => hus (hS u huS)
      rw [if_neg huS] at hgetCur
      unfold rewireLoop
      simp only [hgetCur]
      have hskip : rewireLoop c l (redirectUsers S c g0) =
          .ok (redirectUsers
            (S ++ l.filter (fun x => decide (x ∈ getitem0Users g0 B))) c
            g0) :=
        ih S (fun x hx => hl x (List.mem_cons_of_mem _ hx)) hS
      have hfl : List.filter (fun x => decide (x ∈ getitem0Users g0 B))
          (u :: l) = List.filter
            (fun x => decide (x ∈ getitem0Users g0 B)) l := by
        simp [List.filter_cons, hus]
      rw [hfl]
      by_cases hop : nd0.op = .call_function
      · by_cases htg : nd0.target = .getitem
        · have hv0 := hD (u, nd0) hmem0 href hop htg
          cases hv0c : nd0.args.get? 1 with
          | none => exact absurd hv0c hv0
          | some v0 =>
            have hv0ne : v0 ≠ Value.num 0 := by
              intro he
              subst he
              exact hus ((mem_getitem0Users_iff g0 B u).mpr
                ⟨nd0, hmem0, (isGetitem0Accessor_iff B nd0).mpr
                  ⟨href, hop, htg, hv0c⟩⟩)
            have hcur1 : (substNodeSet S c nd0).args.get? 1 =
                some (substValueSet S c v0) := by
              unfold substNodeSet
              simp only
              rw [substValueListSet_get?, hv0c]
              rfl
            have hsubne : substValueSet S c v0 ≠ Value.num 0 := by
              intro he
              exact hv0ne ((substValueSet_num_iff S c v0 0).mp he)
            rw [if_pos (show (substNodeSet S c nd0).op = .call_function
                  from hop),
                if_pos (show (substNodeSet S c nd0).target = .getitem
                  from htg)]
            simp only [hcur1]
            rw [if_neg hsubne]
            exact hskip
        · rw [if_pos (show (substNodeSet S c nd0).op = .call_function
              from hop),
            if_neg (show ¬ (substNodeSet S c nd0).target = .getitem
              from htg)]
          exact hskip
      · rw [if_neg (show ¬ (substNodeSet S c nd0).op = .call_function
          from hop)]
        exact hskip

theorem rewireGetitemUsers_redirect (g0 : Graph) (B c : Nat)
    (hnodup : (g0.map Prod.fst).Nodup)
    (hsh : ∀ p ∈ g0, p.1 ∈ getitem0Users g0 B →
      p.2.args = [Value.node B, Value.num 0] ∧ p.2.kwargs = [])
    (hB : B ∉ getitem0Users g0 B)
    (hD : ∀ p ∈ g0, referencesNode p.2 B = true →
      p.2.op = .call_function → p.2.target = .getitem →
      p.2.args.get? 1 ≠ Option.none) :
    rewireGetitemUsers B c g0 =
      .ok (redirectUsers (getitem0Users g0 B) c g0) := by
  unfold rewireGetitemUsers
  have h := rewireLoop_redirect g0 B c hnodup hsh hB hD (usersOf g0 B) []
    (fun u hu => hu) (fun u hu => absurd hu (List.not_mem_nil u))
  rw [redirectUsers_nil] at h
  rw [h]
  have hcong : ∀ u, u ∈ [] ++ (usersOf g0 B).filter
      (fun u => decide (u ∈ getitem0Users g0 B)) ↔
      u ∈ getitem0Users g0 B := by
    intro u
    simp only [List.nil_append, List.mem_filter, decide_eq_true_eq]
    constructor
    · rintro ⟨_, hm⟩
      exact hm
    · intro hm
      exact ⟨getitem0Users_subset_usersOf g0 B u hm, hm⟩
  rw [redirectUsers_congr _ _ c hcong]

theorem foldTail_cases (conv_id : Nat) (wv bv : Value) (bn_id : Nat)
    (g : Graph) (m : Store) (conv bn : NodeData) (cw cb : Option Tensor)
    (tr : Value) (bn_args : List Value) (bw bb brm brv : Option Tensor)
    (epsIdx : Nat) (eps : Value)
    (heIdx : (bn.target = .bn_no_training ∧ epsIdx = 6) ∨
      (bn.target = .bn_training ∧ epsIdx = 7))
    (heps : bn_args.get? epsIdx = some eps)
    (wid : Nat) (wnd : NodeData) (wname : String)
    (hwv : wv = .node wid) (hwnd : getNode? g wid = some wnd)
    (hwa : wnd.target = .attr wname)
    (g' : Graph) (m' : Store)
    (hres : foldAfterReads conv_id wv bv bn_id g m conv bn cw cb tr bn_args
      bw bb brm brv = .ok (g', m')) :
    (bv = .none →
      rewireGetitemUsers bn_id conv_id
        (setNodeArgs (insertBefore g conv_id
          (freshId g, ⟨.get_attr, .attr (wname ++ "_bias"), [], []⟩))
          conv_id (conv.args.set 2 (.node (freshId g)))) = .ok g' ∧
      m' = setattrStore (setattrStore m wname
        (fuse_conv_bn_weights cw cb brm brv eps bw bb tr).1)
        (wname ++ "_bias")
        (fuse_conv_bn_weights cw cb brm brv eps bw bb tr).2) ∧
    (∀ bid bnd bname, bv = .node bid → getNode? g bid = some bnd →
        bnd.target = .attr bname →
      rewireGetitemUsers bn_id conv_id (setNodeArgs g conv_id conv.args) =
        .ok g' ∧
      m' = setattrStore (setattrStore m wname
        (fuse_conv_bn_weights cw cb brm brv eps bw bb tr).1) bname
        (fuse_conv_bn_weights cw cb brm brv eps bw bb tr).2) := by
  have hsel : (if bn.target = .bn_no_training then Except.ok 6
      else if bn.target = .bn_training then Except.ok 7
      else Except.error PyErr.valueError : Except PyErr Nat) =
      Except.ok epsIdx := by
    rcases heIdx with ⟨ht, hidx⟩ | ⟨ht, hidx⟩
    · subst hidx
      rw [if_pos ht]
    · subst hidx
      rw [if_neg (by rw [ht]; intro hcon; cases hcon), if_pos ht]
  unfold foldAfterReads at hres
  rw [hsel] at hres
  have hres2 := hres
  clear hres
  simp only [heps, hwv, hwnd, hwa] at hres2
  constructor
  · intro hbv
    rw [hbv] at hres2
    simp only at hres2
    cases hrw : rewireGetitemUsers bn_id conv_id
        (setNodeArgs (insertBefore g conv_id
          (freshId g, ⟨.get_attr, .attr (wname ++ "_bias"), [], []⟩))
          conv_id (conv.args.set 2 (.node (freshId g)))) with
    | error e =>
      rw [hrw] at hres2
      simp only at hres2
      exact absurd hres2 (fun hcon => Except.noConfusion hcon)
    | ok g3 =>
      rw [hrw] at hres2
      simp only at hres2
      injection hres2 with hpair
      have hg : g3 = g' := congrArg Prod.fst hpair
      have hm : _ = m' := congrArg Prod.snd hpair
      constructor
      · rw [← hg]
      · exact hm.symm
  · intro bid bnd bname hbv hbnd hba
    rw [hbv] at hres2
    simp only [hbnd, hba] at hres2
    cases hrw : rewireGetitemUsers bn_id conv_id
        (setNodeArgs g conv_id conv.args) with
    | error e =>
      rw [hrw] at hres2
      simp only at hres2
      exact absurd hres2 (fun hcon => Except.noConfusion hcon)
    | ok g3 =>
      rw [hrw] at hres2
      simp only at hres2
      injection hres2 with hpair
      have hg : g3 = g' := congrArg Prod.fst hpair
      have hm : _ = m' := congrArg Prod.snd hpair
      constructor
      · rw [← hg]
      · exact hm.symm

theorem mem_getitem0Users_getNode? (g : Graph) (B u : Nat)
    (hnodup : (g.map Prod.fst).Nodup) :
    u ∈ getitem0Users g B ↔
      ∃ nd, getNode? g u = some nd ∧ isGetitem0Accessor B nd = true := by
  rw [mem_getitem0Users_iff]
  constructor
  · rintro ⟨nd, hmem, hacc⟩
    exact ⟨nd, getNode?_of_mem_nodup _ _ _ hmem hnodup, hacc⟩
  · rintro ⟨nd, hget, hacc⟩
    exact ⟨nd, getNode?_mem _ _ _ hget, hacc⟩

theorem setNodeArgs_self (g : Graph) (i : Nat) (nd : NodeData)
    (hget : getNode? g i = some nd) (hnodup : (g.map Prod.fst).Nodup) :
    setNodeArgs g i nd.args = g := by
  rw [setNodeArgs_eq_map]
  have hmap : ∀ p ∈ g, (p.1,
      if p.1 = i then { p.2 with args := nd.args } else p.2) = p := by
    intro p hp
    by_cases hpi : p.1 = i
    · have : getNode? g p.1 = some p.2 := by
        apply getNode?_of_mem_nodup _ _ _ _ hnodup
        rwa [Prod.mk.eta]
      rw [hpi] at this
      rw [hget] at this
      injection this with hnd
      rw [if_pos hpi, hnd]
    · rw [if_neg hpi]
  calc g.map (fun p => (p.1,
      if p.1 = i then { p.2 with args := nd.args } else p.2))
      = g.map id := List.map_congr_left hmap
    _ = g := List.map_id g

theorem getNode?_biasInsertedGraph_ne (g : Graph) (conv_id : Nat)
    (conv : NodeData) (wname : String) (i : Nat) (hi : i ≠ conv_id) :
    getNode? (biasInsertedGraph g conv_id conv wname) i =
      if i = freshId g then
        some ⟨.get_attr, .attr (wname ++ "_bias"), [], []⟩
      else getNode? g i := by
  unfold biasInsertedGraph
  rw [getNode?_setNodeArgs,
    getNode?_insertBefore _ _ _ (freshId_not_mem g)]
  by_cases hif : i = freshId g
  · subst hif
    simp [hi]
  · cases hg : getNode? g i <;> simp [hif, hi, hg]

theorem getNode?_biasInsertedGraph_conv (g : Graph) (conv_id : Nat)
    (conv : NodeData) (wname : String)
    (hc : getNode? g conv_id = some conv) :
    getNode? (biasInsertedGraph g conv_id conv wname) conv_id =
      some { conv with args := conv.args.set 2 (.node (freshId g)) } := by
  unfold biasInsertedGraph
  rw [getNode?_setNodeArgs,
    getNode?_insertBefore _ _ _ (freshId_not_mem g)]
  have hlt : conv_id < freshId g :=
    lt_freshId_of_mem g (conv_id, conv) (getNode?_mem _ _ _ hc)
  rw [if_neg (by omega), hc]
  simp

theorem nodup_biasInsertedGraph (g : Graph) (conv_id : Nat)
    (conv : NodeData) (wname : String)
    (hnodup : (g.map Prod.fst).Nodup) :
    ((biasInsertedGraph g conv_id conv wname).map Prod.fst).Nodup := by
  unfold biasInsertedGraph
  rw [ids_setNodeArgs]
  exact nodup_insertBefore g conv_id _ (freshId_not_mem g) hnodup

theorem referencesNode_empty (op : Op) (tg : Target) (B : Nat) :
    referencesNode ⟨op, tg, [], []⟩ B = false := rfl

theorem us_biasInsertedGraph_iff (g : Graph) (conv_id bn_id : Nat)
    (conv : NodeData) (wname : String)
    (hc : getNode? g conv_id = some conv)
    (hnodup : (g.map Prod.fst).Nodup)
    (hct : conv.target = .convolution) (u : Nat) :
    u ∈ getitem0Users (biasInsertedGraph g conv_id conv wname) bn_id ↔
      u ∈ getitem0Users g bn_id := by
  rw [mem_getitem0Users_getNode? _ _ _
    (nodup_biasInsertedGraph g conv_id conv wname hnodup),
    mem_getitem0Users_getNode? _ _ _ hnodup]
  by_cases huc : u = conv_id
  · subst huc
    rw [getNode?_biasInsertedGraph_conv g u conv wname hc]
    constructor
    · rintro ⟨nd, hnd, hacc⟩
      injection hnd with hnd
      rw [← hnd] at hacc
      have := ((isGetitem0Accessor_iff _ _).mp hacc).2.2.1
      simp only at this
      rw [hct] at this
      cases this
    · rintro ⟨nd, hnd, hacc⟩
      rw [hc] at hnd
      injection hnd with hnd
      rw [← hnd] at hacc
      have := ((isGetitem0Accessor_iff _ _).mp hacc).2.2.1
      rw [hct] at this
      cases this
  · rw [getNode?_biasInsertedGraph_ne g conv_id conv wname u huc]
    by_cases huf : u = freshId g
    · rw [if_pos huf]
      constructor
      · rintro ⟨nd, hnd, hacc⟩
        injection hnd with hnd
        rw [← hnd] at hacc
        have := ((isGetitem0Accessor_iff _ _).mp hacc).1
        rw [referencesNode_empty] at this
        cases this
      · rintro ⟨nd, hnd, hacc⟩
        have : u ∈ g.map Prod.fst := mem_ids_of_getNode? g u nd hnd
        rw [huf] at this
        exact absurd this (freshId_not_mem g)
    · rw [if_neg huf]

theorem accessor_ne_conv (g : Graph) (conv_id bn_id : Nat) (conv : NodeData)
    (hc : getNode? g conv_id = some conv)
    (hnodup : (g.map Prod.fst).Nodup)
    (hct : conv.target = .convolution) (u : Nat)
    (hu : u ∈ getitem0Users g bn_id) : u ≠ conv_id := by
  intro he
  subst he
  obtain ⟨nd, hget, hacc⟩ :=
    (mem_getitem0Users_getNode? g bn_id u hnodup).mp hu
  rw [hc] at hget
  injection hget with hnd
  rw [← hnd] at hacc
  have := ((isGetitem0Accessor_iff _ _).mp hacc).2.2.1
  rw [hct] at this
  cases this

theorem accessor_lt_freshId (g : Graph) (bn_id : Nat) (u : Nat)
    (hu : u ∈ getitem0Users g bn_id) : u < freshId g := by
  obtain ⟨nd, hmem, _⟩ := (mem_getitem0Users_iff g bn_id u).mp hu
  exact lt_freshId_of_mem g (u, nd) hmem

theorem shape_biasInsertedGraph (g : Graph) (conv_id bn_id : Nat)
    (conv : NodeData) (wname : String)
    (hc : getNode? g conv_id = some conv)
    (hnodup : (g.map Prod.fst).Nodup)
    (hct : conv.target = .convolution)
    (hsh : ∀ p ∈ g, p.1 ∈ getitem0Users g bn_id →
      p.2.args = [Value.node bn_id, Value.num 0] ∧ p.2.kwargs = []) :
    ∀ p ∈ biasInsertedGraph g conv_id conv wname,
      p.1 ∈ getitem0Users (biasInsertedGraph g conv_id conv wname) bn_id →
      p.2.args = [Value.node bn_id, Value.num 0] ∧ p.2.kwargs = [] := by
  intro p hp hpus
  have hpus' : p.1 ∈ getitem0Users g bn_id :=
    (us_biasInsertedGraph_iff g conv_id bn_id conv wname hc hnodup hct
      p.1).mp hpus
  have hpc : p.1 ≠ conv_id :=
    accessor_ne_conv g conv_id bn_id conv hc hnodup hct p.1 hpus'
  have hpf : ¬ p.1 = freshId g := by
    have := accessor_lt_freshId g bn_id p.1 hpus'
    omega
  have hget : getNode? (biasInsertedGraph g conv_id conv wname) p.1 =
      some p.2 := by
    apply getNode?_of_mem_nodup _ _ _ _
      (nodup_biasInsertedGraph g conv_id conv wname hnodup)
    rwa [Prod.mk.eta]
  rw [getNode?_biasInsertedGraph_ne g conv_id conv wname p.1 hpc,
    if_neg hpf] at hget
  exact hsh (p.1, p.2) (getNode?_mem _ _ _ hget) hpus'

theorem refsafe_biasInsertedGraph (g : Graph) (conv_id bn_id : Nat)
    (conv : NodeData) (wname : String)
    (hc : getNode? g conv_id = some conv)
    (hnodup : (g.map Prod.fst).Nodup)
    (hct : conv.target = .convolution)
    (hD : ∀ p ∈ g, referencesNode p.2 bn_id = true →
      p.2.op = .call_function → p.2.target = .getitem →
      p.2.args.get? 1 ≠ Option.none) :
    ∀ p ∈ biasInsertedGraph g conv_id conv wname,
      referencesNode p.2 bn_id = true → p.2.op = .call_function →
      p.2.target = .getitem → p.2.args.get? 1 ≠ Option.none := by
  intro p hp href hop htg
  have hget : getNode? (biasInsertedGraph g conv_id conv wname) p.1 =
      some p.2 := by
    apply getNode?_of_mem_nodup _ _ _ _
      (nodup_biasInsertedGraph g conv_id conv wname hnodup)
    rwa [Prod.mk.eta]
  by_cases hpc : p.1 = conv_id
  · rw [hpc, getNode?_biasInsertedGraph_conv g conv_id conv wname hc]
      at hget
    injection hget with hnd
    rw [← hnd] at htg
    simp only at htg
    rw [hct] at htg
    cases htg
  · rw [getNode?_biasInsertedGraph_ne g conv_id conv wname p.1 hpc] at hget
    by_cases hpf : p.1 = freshId g
    · rw [if_pos hpf] at hget
      injection hget with hnd
      rw [← hnd] at href
      rw [referencesNode_empty] at href
      cases href
    · rw [if_neg hpf] at hget
      exact hD (p.1, p.2) (getNode?_mem _ _ _ hget) href hop htg

theorem fold_unfold_reads (g : Graph) (m : Store) (conv_id : Nat)
    (wv bv : Value) (bn_id : Nat) (conv bn : NodeData)
    (hc : getNode? g conv_id = some conv)
    (hb : getNode? g bn_id = some bn)
    (cw cb : Option Tensor)
    (hw : _get_tensor_constant_from_node wv g m = .ok cw)
    (hcbv : _get_tensor_constant_from_node bv g m = .ok cb)
    (tr : Value) (htr : conv.args.get? 6 = some tr)
    (sch : List ArgumentV) (hsch : targetSchema bn.target = some sch)
    (v1 v2 v3 v4 : Value) (bw bb brm brv : Option Tensor)
    (hv1 : (_get_all_arguments bn.args bn.kwargs sch).get? 1 = some v1)
    (ht1 : _get_tensor_constant_from_node v1 g m = .ok bw)
    (hv2 : (_get_all_arguments bn.args bn.kwargs sch).get? 2 = some v2)
    (ht2 : _get_tensor_constant_from_node v2 g m = .ok bb)
    (hv3 : (_get_all_arguments bn.args bn.kwargs sch).get? 3 = some v3)
    (ht3 : _get_tensor_constant_from_node v3 g m = .ok brm)
    (hv4 : (_get_all_arguments bn.args bn.kwargs sch).get? 4 = some v4)
    (ht4 : _get_tensor_constant_from_node v4 g m = .ok brv) :
    fold_bn_weights_into_conv_node conv_id wv bv bn_id g m =
      foldAfterReads conv_id wv bv bn_id g m conv bn cw cb tr
        (_get_all_arguments bn.args bn.kwargs sch) bw bb brm brv := by
  unfold fold_bn_weights_into_conv_node
  rw [hc, hb]
  simp only [hw, hcbv, htr, hsch, hv1, ht1, hv2, ht2, hv3, ht3, hv4, ht4]

/-- C3: after a successful fold (its read-level resolution pinned by
hypotheses, on a graph with distinct node ids and well-shaped accessors),
every "select output index 0" accessor of the batch-norm node is itself
untouched, and every other original node of the graph — in particular every
user of such an accessor, and every other-index accessor together with its
users — survives with exactly its references to index-0 accessors redirected
to the convolution node and everything else (op, target, other arguments,
keyword arguments) unchanged. -/
theorem claim_C3 (g : Graph) (m : Store) (conv_id : Nat) (wv bv : Value)
    (bn_id : Nat) (conv bn : NodeData) (g' : Graph) (m' : Store)
    (hres : fold_bn_weights_into_conv_node conv_id wv bv bn_id g m =
      .ok (g', m'))
    (hc : getNode? g conv_id = some conv)
    (hb : getNode? g bn_id = some bn)
    (hnodup : (g.map Prod.fst).Nodup)
    (hct : conv.target = .convolution)
    (cw cb : Option Tensor)
    (hw : _get_tensor_constant_from_node wv g m = .ok cw)
    (hcbv : _get_tensor_constant_from_node bv g m = .ok cb)
    (tr : Value) (htr : conv.args.get? 6 = some tr)
    (sch : List ArgumentV) (hsch : targetSchema bn.target = some sch)
    (v1 v2 v3 v4 : Value) (bw bb brm brv : Option Tensor)
    (hv1 : (_get_all_arguments bn.args bn.kwargs sch).get? 1 = some v1)
    (ht1 : _get_tensor_constant_from_node v1 g m = .ok bw)
    (hv2 : (_get_all_arguments bn.args bn.kwargs sch).get? 2 = some v2)
    (ht2 : _get_tensor_constant_from_node v2 g m = .ok bb)
    (hv3 : (_get_all_arguments bn.args bn.kwargs sch).get? 3 = some v3)
    (ht3 : _get_tensor_constant_from_node v3 g m = .ok brm)
    (hv4 : (_get_all_arguments bn.args bn.kwargs sch).get? 4 = some v4)
    (ht4 : _get_tensor_constant_from_node v4 g m = .ok brv)
    (epsIdx : Nat) (eps : Value)
    (heIdx : (bn.target = .bn_no_training ∧ epsIdx = 6) ∨
      (bn.target = .bn_training ∧ epsIdx = 7))
    (heps : (_get_all_arguments bn.args bn.kwargs sch).get? epsIdx =
      some eps)
    (wid : Nat) (wnd : NodeData) (wname : String)
    (hwv : wv = .node wid) (hwnd : getNode? g wid = some wnd)
    (hwa : wnd.target = .attr wname)
    (hbvcase : bv = .none ∨ ∃ bid bnd bname, bv = .node bid ∧
      getNode? g bid = some bnd ∧ bnd.target = .attr bname)
    (hsh : ∀ p ∈ g, p.1 ∈ getitem0Users g bn_id →
      p.2.args = [Value.node bn_id, Value.num 0] ∧ p.2.kwargs = [])
    (hD : ∀ p ∈ g, referencesNode p.2 bn_id = true →
      p.2.op = .call_function → p.2.target = .getitem →
      p.2.args.get? 1 ≠ Option.none) :
    (∀ u ∈ getitem0Users g bn_id, getNode? g' u = getNode? g u) ∧
    (∀ p ∈ g, p.1 ∉ getitem0Users g bn_id → p.1 ≠ conv_id →
      getNode? g' p.1 =
        some (substNodeSet (getitem0Users g bn_id) conv_id p.2)) := by
  rw [fold_unfold_reads g m conv_id wv bv bn_id conv bn hc hb cw cb hw hcbv
    tr htr sch hsch v1 v2 v3 v4 bw bb brm brv hv1 ht1 hv2 ht2 hv3 ht3 hv4
    ht4] at hres
  have htail := foldTail_cases conv_id wv bv bn_id g m conv bn cw cb tr
    (_get_all_arguments bn.args bn.kwargs sch) bw bb brm brv epsIdx eps
    heIdx heps wid wnd wname hwv hwnd hwa g' m' hres
  have hbnus : bn_id ∉ getitem0Users g bn_id := by
    intro hbn
    obtain ⟨nd, hget, hacc⟩ :=
      (mem_getitem0Users_getNode? g bn_id bn_id hnodup).mp hbn
    rw [hb] at hget
    injection hget with hnd
    have htgt := ((isGetitem0Accessor_iff _ _).mp hacc).2.2.1
    rw [← hnd] at htgt
    rcases heIdx with ⟨ht, _⟩ | ⟨ht, _⟩ <;> rw [ht] at htgt <;> cases htgt
  rcases hbvcase with hbvn | ⟨bid, bnd, bname, hbv, hbnd, hba⟩
  · obtain ⟨hrw, hmst⟩ := htail.1 hbvn
    have hrw2 : rewireGetitemUsers bn_id conv_id
        (biasInsertedGraph g conv_id conv wname) = .ok g' := hrw
    have hcong := us_biasInsertedGraph_iff g conv_id bn_id conv wname hc
      hnodup hct
    have hBB : bn_id ∉ getitem0Users
        (biasInsertedGraph g conv_id conv wname) bn_id :=
      fun hh => hbnus ((hcong bn_id).mp hh)
    have hred := rewireGetitemUsers_redirect
      (biasInsertedGraph g conv_id conv wname) bn_id conv_id
      (nodup_biasInsertedGraph g conv_id conv wname hnodup)
      (shape_biasInsertedGraph g conv_id bn_id conv wname hc hnodup hct hsh)
      hBB
      (refsafe_biasInsertedGraph g conv_id bn_id conv wname hc hnodup hct hD)
    rw [hred] at hrw2
    injection hrw2 with hg'
    rw [redirectUsers_congr _ _ _ hcong] at hg'
    constructor
    · intro u hu
      have hucn : u ≠ conv_id :=
        accessor_ne_conv g conv_id bn_id conv hc hnodup hct u hu
      have hult := accessor_lt_freshId g bn_id u hu
      rw [← hg', getNode?_redirectUsers,
        getNode?_biasInsertedGraph_ne g conv_id conv wname u hucn,
        if_neg (by omega : ¬ u = freshId g)]
      cases hgu : getNode? g u with
      | none => rfl
      | some nd => simp [hu]
    · intro p hp hpus hpc
      have hplt : p.1 < freshId g := lt_freshId_of_mem g p hp
      have hget : getNode? g p.1 = some p.2 := by
        apply getNode?_of_mem_nodup _ _ _ _ hnodup
        rwa [Prod.mk.eta]
      rw [← hg', getNode?_redirectUsers,
        getNode?_biasInsertedGraph_ne g conv_id conv wname p.1 hpc,
        if_neg (by omega : ¬ p.1 = freshId g), hget]
      simp [hpus]
  · obtain ⟨hrw, hmst⟩ := htail.2 bid bnd bname hbv hbnd hba
    rw [setNodeArgs_self g conv_id conv hc hnodup] at hrw
    rw [rewireGetitemUsers_redirect g bn_id conv_id hnodup hsh hbnus hD]
      at hrw
    injection hrw with hg'
    constructor
    · intro u hu
      rw [← hg', getNode?_redirectUsers]
      cases hgu : getNode? g u with
      | none => rfl
      | some nd => simp [hu]
    · intro p hp hpus hpc
      have hget : getNode? g p.1 = some p.2 := by
        apply getNode?_of_mem_nodup _ _ _ _ hnodup
        rwa [Prod.mk.eta]
      rw [← hg', getNode?_redirectUsers, hget]
      simp [hpus]

/-- Witness for C3 on the concrete example pair: the index-0 accessor
(node 8) is untouched, and the output node (node 10) has its reference to
node 8 redirected to the convolution (node 2) with everything else
unchanged. -/
theorem claim_C3_witness :
    getNode? convBnFoldedGraph 8 = getNode? convBnGraph 8 ∧
    getNode? convBnFoldedGraph 10 =
      some (substNodeSet (getitem0Users convBnGraph 7) 2
        ⟨.output, .attr "output", [.tuple [.node 8, .node 9]], []⟩) := by
  have h := claim_C3 convBnGraph convBnStore 2 (.node 1) .none 7
    (⟨.call_function, .convolution,
      [.node 0, .node 1, .none, .num 1, .num 0, .num 1, .bool false], []⟩)
    (⟨.call_function, .bn_no_training,
      [.node 2, .node 3, .node 4, .node 5, .node 6, .num 1, .num 2], []⟩)
    convBnFoldedGraph convBnFusedStore (by decide) rfl rfl (by decide) rfl
    (some (.base "cw")) Option.none rfl rfl (.bool false) rfl
    (targetSchema .bn_no_training).get! rfl
    (.node 3) (.node 4) (.node 5) (.node 6)
    (some (.base "bw")) (some (.base "bb")) (some (.base "brm"))
    (some (.base "brv")) rfl rfl rfl rfl rfl rfl rfl rfl
    6 (.num 2) (Or.inl ⟨rfl, rfl⟩) rfl
    1 (⟨.get_attr, .attr "conv_w", [], []⟩) "conv_w" rfl rfl rfl
    (Or.inl rfl) (by decide) (by decide)
  exact ⟨h.1 8 (by decide),
    h.2 (10, ⟨.output, .attr "output", [.tuple [.node 8, .node 9]], []⟩)
      (by decide) (by decide) (by decide)⟩

/-- C4: after a successful fold (reads pinned by hypotheses): when the
convolution has no bias operand, a new `get_attr` node named
`<weight-name>_bias` appears immediately before the convolution node, the
convolution's third positional argument now references it, and the fused bias
is stored under that attribute name (the fused weight under the weight
attribute name); when a bias node exists, the fused bias is stored under the
existing bias attribute name and the convolution node — its argument list
included — is unchanged. -/
theorem claim_C4 (g : Graph) (m : Store) (conv_id : Nat) (wv bv : Value)
    (bn_id : Nat) (conv bn : NodeData) (g' : Graph) (m' : Store)
    (hres : fold_bn_weights_into_conv_node conv_id wv bv bn_id g m =
      .ok (g', m'))
    (hc : getNode? g conv_id = some conv)
    (hb : getNode? g bn_id = some bn)
    (hnodup : (g.map Prod.fst).Nodup)
    (hct : conv.target = .convolution)
    (cw cb : Option Tensor)
    (hw : _get_tensor_constant_from_node wv g m = .ok cw)
    (hcbv : _get_tensor_constant_from_node bv g m = .ok cb)
    (tr : Value) (htr : conv.args.get? 6 = some tr)
    (sch : List ArgumentV) (hsch : targetSchema bn.target = some sch)
    (v1 v2 v3 v4 : Value) (bw bb brm brv : Option Tensor)
    (hv1 : (_get_all_arguments bn.args bn.kwargs sch).get? 1 = some v1)
    (ht1 : _get_tensor_constant_from_node v1 g m = .ok bw)
    (hv2 : (_get_all_arguments bn.args bn.kwargs sch).get? 2 = some v2)
    (ht2 : _get_tensor_constant_from_node v2 g m = .ok bb)
    (hv3 : (_get_all_arguments bn.args bn.kwargs sch).get? 3 = some v3)
    (ht3 : _get_tensor_constant_from_node v3 g m = .ok brm)
    (hv4 : (_get_all_arguments bn.args bn.kwargs sch).get? 4 = some v4)
    (ht4 : _get_tensor_constant_from_node v4 g m = .ok brv)
    (epsIdx : Nat) (eps : Value)
    (heIdx : (bn.target = .bn_no_training ∧ epsIdx = 6) ∨
      (bn.target = .bn_training ∧ epsIdx = 7))
    (heps : (_get_all_arguments bn.args bn.kwargs sch).get? epsIdx =
      some eps)
    (wid : Nat) (wnd : NodeData) (wname : String)
    (hwv : wv = .node wid) (hwnd : getNode? g wid = some wnd)
    (hwa : wnd.target = .attr wname)
    (hsh : ∀ p ∈ g, p.1 ∈ getitem0Users g bn_id →
      p.2.args = [Value.node bn_id, Value.num 0] ∧ p.2.kwargs = [])
    (hD : ∀ p ∈ g, referencesNode p.2 bn_id = true →
      p.2.op = .call_function → p.2.target = .getitem →
      p.2.args.get? 1 ≠ Option.none)
    (hconvfix : substNodeSet (getitem0Users g bn_id) conv_id conv = conv) :
    (bv = .none →
      getNode? g' (freshId g) =
        some ⟨.get_attr, .attr (wname ++ "_bias"), [], []⟩ ∧
      (∃ k, (g'.map Prod.fst).get? k = some (freshId g) ∧
        (g'.map Prod.fst).get? (k + 1) = some conv_id) ∧
      (∃ cnd, getNode? g' conv_id = some cnd ∧
        cnd.args.get? 2 = some (.node (freshId g))) ∧
      lookupKw m' (wname ++ "_bias") =
        some (.fusedBias (optTensor cw) (optTensor cb) (optTensor brm)
          (optTensor brv) eps (optTensor bw) (optTensor bb) tr) ∧
      lookupKw m' wname =
        some (.fusedWeight (optTensor cw) (optTensor cb) (optTensor brm)
          (optTensor brv) eps (optTensor bw) (optTensor bb) tr)) ∧
    (∀ bid bnd bname, bv = .node bid → getNode? g bid = some bnd →
        bnd.target = .attr bname →
      lookupKw m' bname =
        some (.fusedBias (optTensor cw) (optTensor cb) (optTensor brm)
          (optTensor brv) eps (optTensor bw) (optTensor bb) tr) ∧
      getNode? g' conv_id = some conv) := by
  rw [fold_unfold_reads g m conv_id wv bv bn_id conv bn hc hb cw cb hw hcbv
    tr htr sch hsch v1 v2 v3 v4 bw bb brm brv hv1 ht1 hv2 ht2 hv3 ht3 hv4
    ht4] at hres
  have htail := foldTail_cases conv_id wv bv bn_id g m conv bn cw cb tr
    (_get_all_arguments bn.args bn.kwargs sch) bw bb brm brv epsIdx eps
    heIdx heps wid wnd wname hwv hwnd hwa g' m' hres
  have hbnus : bn_id ∉ getitem0Users g bn_id := by
    intro hbn
    obtain ⟨nd, hget, hacc⟩ :=
      (mem_getitem0Users_getNode? g bn_id bn_id hnodup).mp hbn
    rw [hb] at hget
    injection hget with hnd
    have htgt := ((isGetitem0Accessor_iff _ _).mp hacc).2.2.1
    rw [← hnd] at htgt
    rcases heIdx with ⟨ht, _⟩ | ⟨ht, _⟩ <;> rw [ht] at htgt <;> cases htgt
  have hcnus : conv_id ∉ getitem0Users g bn_id :=
    fun hh => accessor_ne_conv g conv_id bn_id conv hc hnodup hct conv_id
      hh rfl
  have hfnus : freshId g ∉ getitem0Users g bn_id := by
    intro hh
    have := accessor_lt_freshId g bn_id (freshId g) hh
    omega
  constructor
  · intro hbvn
    obtain ⟨hrw, hmst⟩ := htail.1 hbvn
    have hrw2 : rewireGetitemUsers bn_id conv_id
        (biasInsertedGraph g conv_id conv wname) = .ok g' := hrw
    have hcong := us_biasInsertedGraph_iff g conv_id bn_id conv wname hc
      hnodup hct
    have hBB : bn_id ∉ getitem0Users
        (biasInsertedGraph g conv_id conv wname) bn_id :=
      fun hh => hbnus ((hcong bn_id).mp hh)
    have hred := rewireGetitemUsers_redirect
      (biasInsertedGraph g conv_id conv wname) bn_id conv_id
      (nodup_biasInsertedGraph g conv_id conv wname hnodup)
      (shape_biasInsertedGraph g conv_id bn_id conv wname hc hnodup hct hsh)
      hBB
      (refsafe_biasInsertedGraph g conv_id bn_id conv wname hc hnodup hct hD)
    rw [hred] at hrw2
    injection hrw2 with hg'
    rw [redirectUsers_congr _ _ _ hcong] at hg'
    have hcid : conv_id ∈ g.map Prod.fst := mem_ids_of_getNode? g conv_id
      conv hc
    have hclt : conv_id < freshId g :=
      lt_freshId_of_mem g (conv_id, conv) (getNode?_mem _ _ _ hc)
    refine ⟨?_, ?_, ?_, ?_, ?_⟩
    · rw [← hg', getNode?_redirectUsers,
        getNode?_biasInsertedGraph_ne g conv_id conv wname (freshId g)
          (by omega), if_pos rfl]
      simp only [Option.map_some']
      rw [if_neg hfnus]
      rfl
    · obtain ⟨k, h1, h2⟩ := insertBefore_adjacent g conv_id
        (freshId g, ⟨.get_attr, .attr (wname ++ "_bias"), [], []⟩) hcid
      refine ⟨k, ?_, ?_⟩
      · rw [← hg', ids_redirectUsers]
        unfold biasInsertedGraph
        rw [ids_setNodeArgs]
        exact h1
      · rw [← hg', ids_redirectUsers]
        unfold biasInsertedGraph
        rw [ids_setNodeArgs]
        exact h2
    · refine ⟨substNodeSet (getitem0Users g bn_id) conv_id
        { conv with args := conv.args.set 2 (.node (freshId g)) }, ?_, ?_⟩
      · rw [← hg', getNode?_redirectUsers,
          getNode?_biasInsertedGraph_conv g conv_id conv wname hc]
        simp only [Option.map_some']
        rw [if_neg hcnus]
      · show (substValueListSet (getitem0Users g bn_id) conv_id
            (conv.args.set 2 (.node (freshId g)))).get? 2 = _
        rw [substValueListSet_get?]
        have hlen : 6 < conv.args.length := by
          by_contra hcon
          rw [List.get?_eq_none.mpr (by omega)] at htr
          cases htr
        rw [List.get?_set_eq_of_lt _ (by omega)]
        simp only [Option.map_some']
        show some (substValueSet (getitem0Users g bn_id) conv_id
          (.node (freshId g))) = _
        simp only [substValueSet]
        rw [if_neg hfnus]
    · rw [hmst, lookupKw_setattr_self]
      rfl
    · rw [hmst, lookupKw_setattr_ne _ _ _ _ (ne_append_bias wname),
        lookupKw_setattr_self]
      rfl
  · intro bid bnd bname hbv hbnd hba
    obtain ⟨hrw, hmst⟩ := htail.2 bid bnd bname hbv hbnd hba
    rw [setNodeArgs_self g conv_id conv hc hnodup] at hrw
    rw [rewireGetitemUsers_redirect g bn_id conv_id hnodup hsh hbnus hD]
      at hrw
    injection hrw with hg'
    constructor
    · rw [hmst, lookupKw_setattr_self]
      rfl
    · rw [← hg', getNode?_redirectUsers, hc]
      simp only [Option.map_some']
      rw [if_neg hcnus, hconvfix]

/-- Witness for C4 on the concrete example pair (bias-less convolution). -/
theorem claim_C4_witness :
    getNode? convBnFoldedGraph (freshId convBnGraph) =
      some ⟨.get_attr, .attr ("conv_w" ++ "_bias"), [], []⟩ ∧
    (∃ k, (convBnFoldedGraph.map Prod.fst).get? k =
        some (freshId convBnGraph) ∧
      (convBnFoldedGraph.map Prod.fst).get? (k + 1) = some 2) ∧
    (∃ cnd, getNode? convBnFoldedGraph 2 = some cnd ∧
      cnd.args.get? 2 = some (.node (freshId convBnGraph))) ∧
    lookupKw convBnFusedStore ("conv_w" ++ "_bias") =
      some (.fusedBias (optTensor (some (.base "cw")))
        (optTensor Option.none) (optTensor (some (.base "brm")))
        (optTensor (some (.base "brv"))) (.num 2)
        (optTensor (some (.base "bw"))) (optTensor (some (.base "bb")))
        (.bool false)) ∧
    lookupKw convBnFusedStore "conv_w" =
      some (.fusedWeight (optTensor (some (.base "cw")))
        (optTensor Option.none) (optTensor (some (.base "brm")))
        (optTensor (some (.base "brv"))) (.num 2)
        (optTensor (some (.base "bw"))) (optTensor (some (.base "bb")))
        (.bool false)) := by
  have h := claim_C4 convBnGraph convBnStore 2 (.node 1) .none 7
    (⟨.call_function, .convolution,
      [.node 0, .node 1, .none, .num 1, .num 0, .num 1, .bool false], []⟩)
    (⟨.call_function, .bn_no_training,
      [.node 2, .node 3, .node 4, .node 5, .node 6, .num 1, .num 2], []⟩)
    convBnFoldedGraph convBnFusedStore (by decide) rfl rfl (by decide) rfl
    (some (.base "cw")) Option.none rfl rfl (.bool false) rfl
    (targetSchema .bn_no_training).get! rfl
    (.node 3) (.node 4) (.node 5) (.node 6)
    (some (.base "bw")) (some (.base "bb")) (some (.base "brm"))
    (some (.base "brv")) rfl rfl rfl rfl rfl rfl rfl rfl
    6 (.num 2) (Or.inl ⟨rfl, rfl⟩) rfl
    1 (⟨.get_attr, .attr "conv_w", [], []⟩) "conv_w" rfl rfl rfl
    (by decide) (by decide) (by decide)
  exact h.1 rfl

theorem getNode?_insertAfterGo_ne (g : Graph) (a : Nat)
    (n : Nat × NodeData) (i : Nat) (hi : i ≠ n.1) :
    getNode? (insertAfterGo g a n) i = getNode? g i := by
  induction g with
  | nil =>
    simp only [insertAfterGo, getNode?]
    rw [if_neg (fun he => hi he.symm)]
  | cons x rest ih =>
    by_cases hx : x.1 = a
    · simp only [insertAfterGo, if_pos hx, getNode?]
      by_cases hxi : x.1 = i
      · rw [if_pos hxi, if_pos hxi]
      · rw [if_neg hxi, if_neg hxi, if_neg (fun he => hi he.symm)]
    · simp only [insertAfterGo, if_neg hx, getNode?]
      by_cases hxi : x.1 = i
      · rw [if_pos hxi, if_pos hxi]
      · rw [if_neg hxi, if_neg hxi, ih]

theorem getNode?_insertAfter_ne (g : Graph) (a : Option Nat)
    (n : Nat × NodeData) (i : Nat) (hi : i ≠ n.1) :
    getNode? (insertAfter g a n) i = getNode? g i := by
  cases a with
  | none =>
    simp only [insertAfter]
    induction g with
    | nil =>
      simp only [List.nil_append, getNode?]
      rw [if_neg (fun he => hi he.symm)]
    | cons x rest ih =>
      simp only [List.cons_append, getNode?]
      by_cases hxi : x.1 = i
      · rw [if_pos hxi, if_pos hxi]
      · rw [if_neg hxi, if_neg hxi]
        exact ih
  | some a => exact getNode?_insertAfterGo_ne g a n i hi

theorem mem_insertAfterGo (g : Graph) (a : Nat) (n p : Nat × NodeData)
    (hp : p ∈ insertAfterGo g a n) : p = n ∨ p ∈ g := by
  induction g with
  | nil => simpa [insertAfterGo] using hp
  | cons x rest ih =>
    by_cases hx : x.1 = a
    · simp only [insertAfterGo, if_pos hx, List.mem_cons] at hp
      rcases hp with h | h | h
      · exact Or.inr (by simp [h])
      · exact Or.inl h
      · exact Or.inr (List.mem_cons_of_mem _ h)
    · simp only [insertAfterGo, if_neg hx, List.mem_cons] at hp
      rcases hp with h | h
      · exact Or.inr (by simp [h])
      · rcases ih h with h2 | h2
        · exact Or.inl h2
        · exact Or.inr (List.mem_cons_of_mem _ h2)

theorem mem_insertAfter (g : Graph) (a : Option Nat) (n p : Nat × NodeData)
    (hp : p ∈ insertAfter g a n) : p = n ∨ p ∈ g := by
  cases a with
  | none =>
    simp only [insertAfter] at hp
    rcases List.mem_append.mp hp with h | h
    · exact Or.inr h
    · exact Or.inl (by simpa using h)
  | some a => exact mem_insertAfterGo g a n p hp

theorem processArgs_preserves (lp : Option Nat) (args : List Value) :
    ∀ (g : Graph) (cnt fresh leaves : Nat),
    (∀ p ∈ g, p.1 < fresh) →
    (∀ p ∈ (processArgs lp args g cnt fresh leaves).2.1,
      p.1 < (processArgs lp args g cnt fresh leaves).2.2.2.1) ∧
    fresh ≤ (processArgs lp args g cnt fresh leaves).2.2.2.1 ∧
    (∀ i, i < fresh →
      getNode? (processArgs lp args g cnt fresh leaves).2.1 i =
        getNode? g i) := by
  induction args with
  | nil =>
    intro g cnt fresh leaves hlt
    exact ⟨hlt, le_refl _, fun i _ => rfl⟩
  | cons a rest ih =>
    intro g cnt fresh leaves hlt
    by_cases hl : _is_literal a = true
    · have heq : processArgs lp (a :: rest) g cnt fresh leaves =
          (Value.node fresh ::
            (processArgs lp rest
              (insertAfter g lp
                (fresh, ⟨.placeholder, .attr ("arg" ++ toString cnt),
                  [], []⟩))
              (cnt + 1) (fresh + 1) (leaves + 1)).1,
           (processArgs lp rest
              (insertAfter g lp
                (fresh, ⟨.placeholder, .attr ("arg" ++ toString cnt),
                  [], []⟩))
              (cnt + 1) (fresh + 1) (leaves + 1)).2) := by
        simp only [processArgs, hl, if_true]
      have hlt2 : ∀ p ∈ insertAfter g lp
          (fresh, ⟨.placeholder, .attr ("arg" ++ toString cnt), [], []⟩),
          p.1 < fresh + 1 := by
        intro p hp
        rcases mem_insertAfter _ _ _ _ hp with h | h
        · rw [h]
          omega
        · have := hlt p h
          omega
      have hrec := ih (insertAfter g lp
        (fresh, ⟨.placeholder, .attr ("arg" ++ toString cnt), [], []⟩))
        (cnt + 1) (fresh + 1) (leaves + 1) hlt2
      rw [heq]
      refine ⟨hrec.1, le_trans (by omega) hrec.2.1, ?_⟩
      intro i hi
      rw [hrec.2.2 i (by omega),
        getNode?_insertAfter_ne _ _ _ _ (by intro he; simp at he; omega)]
    · have heq : processArgs lp (a :: rest) g cnt fresh leaves =
          (a :: (processArgs lp rest g cnt fresh leaves).1,
           (processArgs lp rest g cnt fresh leaves).2) := by
        simp only [processArgs, hl]
        simp [hl]
      have hrec := ih g cnt fresh leaves hlt
      rw [heq]
      exact hrec

theorem rlpLoop_kwargs (ids : List Nat) :
    ∀ (g : Graph) (lp : Option Nat) (cnt fresh leaves : Nat),
    (∀ p ∈ g, p.1 < fresh) →
    ∀ i nd, getNode? g i = some nd →
    ∃ nd', getNode? (rlpLoop ids g lp cnt fresh leaves).1 i = some nd' ∧
      nd'.kwargs = nd.kwargs := by
  induction ids with
  | nil =>
    intro g lp cnt fresh leaves hlt i nd hget
    exact ⟨nd, hget, rfl⟩
  | cons j rest ih =>
    intro g lp cnt fresh leaves hlt i nd hget
    cases hj : getNode? g j with
    | none =>
      simp only [rlpLoop, hj]
      exact ih g lp cnt fresh leaves hlt i nd hget
    | some ndj =>
      simp only [rlpLoop, hj]
      by_cases hph : ndj.op = .placeholder
      · rw [if_pos hph]
        exact ih g (some j) (cnt + 1) fresh leaves hlt i nd hget
      · rw [if_neg hph]
        have hpa := processArgs_preserves lp ndj.args g cnt fresh leaves hlt
        set r := processArgs lp ndj.args g cnt fresh leaves with hr
        have hltr : ∀ p ∈ setNodeArgs r.2.1 j r.1, p.1 < r.2.2.2.1 := by
          intro p hp
          rw [setNodeArgs_eq_map] at hp
          obtain ⟨q, hq, hqp⟩ := List.mem_map.mp hp
          have := hpa.1 q hq
          rw [← hqp]
          exact this
        have hkeep : ∀ i2 nd2, getNode? g i2 = some nd2 →
            ∃ nd3, getNode? (setNodeArgs r.2.1 j r.1) i2 = some nd3 ∧
              nd3.kwargs = nd2.kwargs := by
          intro i2 nd2 hget2
          have hi2 : i2 < fresh := hlt (i2, nd2) (getNode?_mem _ _ _ hget2)
          rw [getNode?_setNodeArgs, hpa.2.2 i2 hi2, hget2]
          refine ⟨if i2 = j then { nd2 with args := r.1 } else nd2, ?_, ?_⟩
          · rw [Option.map_some']
          · by_cases hij : i2 = j <;> simp [hij]
        obtain ⟨nd3, h3, hk3⟩ := hkeep i nd hget
        obtain ⟨nd4, h4, hk4⟩ := ih (setNodeArgs r.2.1 j r.1) lp r.2.2.1
          r.2.2.2.1 r.2.2.2.2 hltr i nd3 h3
        exact ⟨nd4, h4, by rw [hk4, hk3]⟩

/-- C10: literal promotion inspects and rewrites only positional argument
lists: every node of the input graph survives with its keyword-argument
mapping unchanged, so a literal appearing only as a keyword argument is never
promoted. -/
theorem claim_C10 (gm : GM) (i : Nat) (nd : NodeData)
    (h : getNode? gm.graph i = some nd) :
    ∃ nd', getNode? (_replace_literals_with_placeholders gm).graph i =
      some nd' ∧ nd'.kwargs = nd.kwargs := by
  unfold _replace_literals_with_placeholders
  exact rlpLoop_kwargs (gm.graph.map (fun p => p.1)) gm.graph Option.none 0
    (freshId gm.graph) gm.in_spec_leaves
    (fun p hp => lt_freshId_of_mem _ p hp) i nd h

/-- Witness for C10: a keyword-argument literal survives promotion
untouched. -/
theorem claim_C10_witness :
    ∃ nd', getNode? (_replace_literals_with_placeholders kwargLitGM).graph 1 =
      some nd' ∧ nd'.kwargs = [("alpha", Value.num 3)] :=
  claim_C10 kwargLitGM 1
    ⟨.call_function, .opOther "add" false, [.node 0], [("alpha", .num 3)]⟩
    rfl

/-- C6 counterexample: on the spec's own example (literals `3` and `(1,2)` in
that traversal order) the two new placeholders appear after the original
placeholder in REVERSE traversal order — node ids `[0, 4, 3, 1, 2]`, with
`4` the placeholder of the second literal and `3` that of the first — not in
traversal order `[0, 3, 4, 1, 2]` as the claim states. -/
theorem claim_C6_counterexample :
    _replace_literals_with_placeholders litGM = litGMPromoted ∧
    (litGMPromoted.graph.map Prod.fst = [0, 4, 3, 1, 2] ∧
      litGMPromoted.graph.map Prod.fst ≠ [0, 3, 4, 1, 2]) := by
  refine ⟨by decide, by decide, by decide⟩

theorem insertAfterGo_split (d1 : Graph) (lpn : Nat × NodeData)
    (X : Graph) (n : Nat × NodeData) (hlp : lpn.1 ∉ d1.map Prod.fst) :
    insertAfterGo (d1 ++ lpn :: X) lpn.1 n = d1 ++ lpn :: n :: X := by
  induction d1 with
  | nil => simp [insertAfterGo]
  | cons x rest ih =>
    simp only [List.map_cons, List.mem_cons] at hlp
    push_neg at hlp
    have hne : ¬ x.1 = lpn.1 := fun he => hlp.1 he.symm
    simp only [List.cons_append, insertAfterGo, if_neg hne]
    exact congrArg (fun l => x :: l) (ih hlp.2)

theorem promoteArgs_fresh (cnt fresh : Nat) (args : List Value) :
    (promoteArgs cnt fresh args).2.2.2 =
      fresh + (promoteArgs cnt fresh args).2.1.length ∧
    ∀ p ∈ (promoteArgs cnt fresh args).2.1,
      fresh ≤ p.1 ∧ p.1 < (promoteArgs cnt fresh args).2.2.2 := by
  induction args generalizing cnt fresh with
  | nil => simp [promoteArgs]
  | cons a rest ih =>
    by_cases hl : _is_literal a = true
    · have heq : promoteArgs cnt fresh (a :: rest) =
          (Value.node fresh :: (promoteArgs (cnt + 1) (fresh + 1) rest).1,
           (fresh, ⟨.placeholder, .attr ("arg" ++ toString cnt), [], []⟩) ::
             (promoteArgs (cnt + 1) (fresh + 1) rest).2.1,
           (promoteArgs (cnt + 1) (fresh + 1) rest).2.2) := by
        simp [promoteArgs, hl]
      obtain ⟨ha, hb⟩ := ih (cnt + 1) (fresh + 1)
      rw [heq]
      dsimp only
      constructor
      · simp only [List.length_cons]
        omega
      · intro p hp
        rcases List.mem_cons.mp hp with he | hm
        · rw [he]
          dsimp only
          omega
        · have := hb p hm
          omega
    · have heq : promoteArgs cnt fresh (a :: rest) =
          (a :: (promoteArgs cnt fresh rest).1,
           (promoteArgs cnt fresh rest).2) := by
        simp [promoteArgs, hl]
      rw [heq]
      exact ih cnt fresh

theorem processArgs_promote (lpn : Nat × NodeData) (d1 : Graph)
    (hlp : lpn.1 ∉ d1.map Prod.fst) (args : List Value) :
    ∀ (X : Graph) (cnt fresh leaves : Nat),
    processArgs (some lpn.1) args (d1 ++ lpn :: X) cnt fresh leaves =
      ((promoteArgs cnt fresh args).1,
       d1 ++ lpn :: ((promoteArgs cnt fresh args).2.1.reverse ++ X),
       (promoteArgs cnt fresh args).2.2.1,
       (promoteArgs cnt fresh args).2.2.2,
       leaves + (promoteArgs cnt fresh args).2.1.length) := by
  induction args with
  | nil =>
    intro X cnt fresh leaves
    simp [processArgs, promoteArgs]
  | cons a rest ih =>
    intro X cnt fresh leaves
    by_cases hl : _is_literal a = true
    · have hins : insertAfter (d1 ++ lpn :: X) (some lpn.1)
          (fresh, ⟨.placeholder, .attr ("arg" ++ toString cnt), [], []⟩) =
          d1 ++ lpn ::
            (fresh, ⟨.placeholder, .attr ("arg" ++ toString cnt), [], []⟩)
            :: X := by
        simp only [insertAfter]
        exact insertAfterGo_split d1 lpn X _ hlp
      have heq1 : processArgs (some lpn.1) (a :: rest) (d1 ++ lpn :: X)
          cnt fresh leaves =
          (Value.node fresh ::
            (processArgs (some lpn.1) rest (d1 ++ lpn ::
              (fresh, ⟨.placeholder, .attr ("arg" ++ toString cnt), [], []⟩)
              :: X) (cnt + 1) (fresh + 1) (leaves + 1)).1,
           (processArgs (some lpn.1) rest (d1 ++ lpn ::
              (fresh, ⟨.placeholder, .attr ("arg" ++ toString cnt), [], []⟩)
              :: X) (cnt + 1) (fresh + 1) (leaves + 1)).2) := by
        simp only [processArgs, hl, if_true, hins]
      have heq2 : promoteArgs cnt fresh (a :: rest) =
          (Value.node fresh :: (promoteArgs (cnt + 1) (fresh + 1) rest).1,
           (fresh, ⟨.placeholder, .attr ("arg" ++ toString cnt), [], []⟩) ::
             (promoteArgs (cnt + 1) (fresh + 1) rest).2.1,
           (promoteArgs (cnt + 1) (fresh + 1) rest).2.2) := by
        simp [promoteArgs, hl]
      rw [heq1, heq2, ih]
      dsimp only
      simp only [List.reverse_cons, List.append_assoc,
        List.singleton_append, List.length_cons, Prod.mk.injEq,
        eq_self_iff_true, true_and]
      omega
    · have heq1 : processArgs (some lpn.1) (a :: rest) (d1 ++ lpn :: X)
          cnt fresh leaves =
          (a :: (processArgs (some lpn.1) rest (d1 ++ lpn :: X)
              cnt fresh leaves).1,
           (processArgs (some lpn.1) rest (d1 ++ lpn :: X)
              cnt fresh leaves).2) := by
        simp [processArgs, hl]
      have heq2 : promoteArgs cnt fresh (a :: rest) =
          (a :: (promoteArgs cnt fresh rest).1,
           (promoteArgs cnt fresh rest).2) := by
        simp [promoteArgs, hl]
      rw [heq1, heq2, ih]

theorem setNodeArgs_split (X Y : Graph) (i : Nat) (nd : NodeData)
    (args : List Value) (hX : i ∉ X.map Prod.fst)
    (hY : i ∉ Y.map Prod.fst) :
    setNodeArgs (X ++ (i, nd) :: Y) i args =
      X ++ (i, { nd with args := args }) :: Y := by
  unfold setNodeArgs
  rw [List.map_append, List.map_cons]
  have hXeq : X.map (fun p =>
      if p.1 = i then (p.1, { p.2 with args := args }) else p) = X := by
    have : ∀ p ∈ X, (if p.1 = i then (p.1, { p.2 with args := args })
        else p) = p := by
      intro p hp
      rw [if_neg]
      intro he
      exact hX (List.mem_map.mpr ⟨p, hp, he⟩)
    calc X.map _ = X.map id := List.map_congr_left this
      _ = X := List.map_id X
  have hYeq : Y.map (fun p =>
      if p.1 = i then (p.1, { p.2 with args := args }) else p) = Y := by
    have : ∀ p ∈ Y, (if p.1 = i then (p.1, { p.2 with args := args })
        else p) = p := by
      intro p hp
      rw [if_neg]
      intro he
      exact hY (List.mem_map.mpr ⟨p, hp, he⟩)
    calc Y.map _ = Y.map id := List.map_congr_left this
      _ = Y := List.map_id Y
  rw [hXeq, hYeq]
  simp

theorem getNode?_append_right (X Y : Graph) (i : Nat)
    (hX : i ∉ X.map Prod.fst) : getNode? (X ++ Y) i = getNode? Y i := by
  induction X with
  | nil => rfl
  | cons x rest ih =>
    simp only [List.map_cons, List.mem_cons] at hX
    push_neg at hX
    simp only [List.cons_append, getNode?]
    rw [if_neg (fun he => hX.1 he.symm)]
    exact ih hX.2

theorem promoteNodes_fresh (cnt fresh : Nat) (rest : Graph) :
    (promoteNodes cnt fresh rest).2.2.2 =
      fresh + (promoteNodes cnt fresh rest).2.1.length ∧
    (∀ p ∈ (promoteNodes cnt fresh rest).2.1,
      fresh ≤ p.1 ∧ p.1 < (promoteNodes cnt fresh rest).2.2.2) := by
  induction rest generalizing cnt fresh with
  | nil => simp [promoteNodes]
  | cons x rest ih =>
    obtain ⟨i, nd⟩ := x
    have heq : promoteNodes cnt fresh ((i, nd) :: rest) =
        ((i, { nd with args := (promoteArgs cnt fresh nd.args).1 }) ::
          (promoteNodes (promoteArgs cnt fresh nd.args).2.2.1
            (promoteArgs cnt fresh nd.args).2.2.2 rest).1,
         (promoteArgs cnt fresh nd.args).2.1 ++
          (promoteNodes (promoteArgs cnt fresh nd.args).2.2.1
            (promoteArgs cnt fresh nd.args).2.2.2 rest).2.1,
         (promoteNodes (promoteArgs cnt fresh nd.args).2.2.1
            (promoteArgs cnt fresh nd.args).2.2.2 rest).2.2) := by
      simp [promoteNodes]
    obtain ⟨hpa1, hpa2⟩ := promoteArgs_fresh cnt fresh nd.args
    obtain ⟨hpn1, hpn2⟩ := ih (promoteArgs cnt fresh nd.args).2.2.1
      (promoteArgs cnt fresh nd.args).2.2.2
    rw [heq]
    dsimp only
    constructor
    · simp only [List.length_append]
      omega
    · intro p hp
      rcases List.mem_append.mp hp with hm | hm
      · have := hpa2 p hm
        omega
      · have := hpn2 p hm
        omega

theorem rlpLoop_ph_prefix (phs : Graph) :
    ∀ (rest_ids : List Nat) (g : Graph) (lp : Option Nat)
      (cnt fresh leaves : Nat),
    (∀ p ∈ phs, p.2.op = Op.placeholder) →
    (∀ p ∈ phs, getNode? g p.1 = some p.2) →
    rlpLoop (phs.map Prod.fst ++ rest_ids) g lp cnt fresh leaves =
      rlpLoop rest_ids g (phs.foldl (fun _ p => some p.1) lp)
        (cnt + phs.length) fresh leaves := by
  induction phs with
  | nil =>
    intro rest_ids g lp cnt fresh leaves _ _
    simp
  | cons q phs ih =>
    intro rest_ids g lp cnt fresh leaves hph hget
    have hq : getNode? g q.1 = some q.2 := hget q (List.mem_cons_self q _)
    have hqph : q.2.op = Op.placeholder := hph q (List.mem_cons_self q _)
    simp only [List.map_cons, List.cons_append, rlpLoop, hq, hqph,
      eq_self_iff_true, if_true]
    have hih := ih rest_ids g (some q.1) (cnt + 1) fresh leaves
      (fun p hp => hph p (List.mem_cons_of_mem q hp))
      (fun p hp => hget p (List.mem_cons_of_mem q hp))
    rw [List.foldl_cons, List.length_cons]
    have harith : cnt + (phs.length + 1) = cnt + 1 + phs.length := by omega
    rw [harith]
    exact hih

theorem foldl_anchor_last (l : List (Nat × NodeData)) (x : Nat × NodeData)
    (init : Option Nat) :
    (l ++ [x]).foldl (fun _ p => some p.1) init = some x.1 := by
  rw [List.foldl_append]
  rfl

theorem rlpLoop_promote (lpn : Nat × NodeData) (d1 : Graph)
    (hlp : lpn.1 ∉ d1.map Prod.fst) :
    ∀ (rest acc procd : Graph) (cnt fresh leaves : Nat),
    (∀ p ∈ d1 ++ lpn :: (acc ++ (procd ++ rest)), p.1 < fresh) →
    (∀ p ∈ d1 ++ lpn :: (acc ++ procd), p.1 ∉ rest.map Prod.fst) →
    (rest.map Prod.fst).Nodup →
    (∀ p ∈ rest, ¬ p.2.op = Op.placeholder) →
    rlpLoop (rest.map Prod.fst) (d1 ++ lpn :: (acc ++ (procd ++ rest)))
        (some lpn.1) cnt fresh leaves =
      (d1 ++ lpn :: (((promoteNodes cnt fresh rest).2.1.reverse ++ acc) ++
        (procd ++ (promoteNodes cnt fresh rest).1)),
       leaves + (promoteNodes cnt fresh rest).2.1.length) := by
  intro rest
  induction rest with
  | nil =>
    intro acc procd cnt fresh leaves _ _ _ _
    simp [rlpLoop, promoteNodes]
  | cons x rest' ih =>
    obtain ⟨i, nd⟩ := x
    intro acc procd cnt fresh leaves hfr hdisj hnodup hnp
    have hiR : i ∈ (((i, nd) :: rest').map Prod.fst) := by simp
    have hiX : i ∉ (d1 ++ lpn :: (acc ++ procd)).map Prod.fst := by
      intro hmem
      obtain ⟨p, hp, hpi⟩ := List.mem_map.mp hmem
      exact hdisj p hp (by rw [hpi]; exact hiR)
    have hshape1 : d1 ++ lpn :: (acc ++ (procd ++ ((i, nd) :: rest'))) =
        (d1 ++ lpn :: (acc ++ procd)) ++ ((i, nd) :: rest') := by
      simp [List.append_assoc]
    have hget : getNode?
        (d1 ++ lpn :: (acc ++ (procd ++ ((i, nd) :: rest')))) i =
        some nd := by
      rw [hshape1, getNode?_append_right _ _ _ hiX]
      simp [getNode?]
    have hop : ¬ nd.op = Op.placeholder := hnp (i, nd) (by simp)
    have hile : i < fresh := hfr (i, nd) (by simp)
    have hpaf := promoteArgs_fresh cnt fresh nd.args
    have hpa := processArgs_promote lpn d1 hlp nd.args
      (acc ++ (procd ++ ((i, nd) :: rest'))) cnt fresh leaves
    have hirest' : i ∉ rest'.map Prod.fst := by
      have h := hnodup
      simp only [List.map_cons, List.nodup_cons] at h
      exact h.1
    have hiX2 : i ∉ (d1 ++ lpn ::
        ((promoteArgs cnt fresh nd.args).2.1.reverse ++
          (acc ++ procd))).map Prod.fst := by
      intro hmem
      obtain ⟨p, hp, hpi⟩ := List.mem_map.mp hmem
      simp only [List.mem_append, List.mem_cons, List.mem_reverse,
        or_assoc] at hp
      rcases hp with h | h | h | h | h
      · exact hiX (List.mem_map.mpr ⟨p, by simp [h], hpi⟩)
      · exact hiX (List.mem_map.mpr ⟨p, by simp [h], hpi⟩)
      · have := (hpaf.2 p h).1
        omega
      · exact hiX (List.mem_map.mpr ⟨p, by simp [h], hpi⟩)
      · exact hiX (List.mem_map.mpr ⟨p, by simp [h], hpi⟩)
    have hshape2 : d1 ++ lpn ::
        ((promoteArgs cnt fresh nd.args).2.1.reverse ++
          (acc ++ (procd ++ ((i, nd) :: rest')))) =
        (d1 ++ lpn :: ((promoteArgs cnt fresh nd.args).2.1.reverse ++
          (acc ++ procd))) ++ ((i, nd) :: rest') := by
      simp [List.append_assoc]
    have hset : setNodeArgs (d1 ++ lpn ::
        ((promoteArgs cnt fresh nd.args).2.1.reverse ++
          (acc ++ (procd ++ ((i, nd) :: rest')))))
        i (promoteArgs cnt fresh nd.args).1 =
        d1 ++ lpn :: (((promoteArgs cnt fresh nd.args).2.1.reverse ++ acc) ++
          ((procd ++
            [(i, { nd with args := (promoteArgs cnt fresh nd.args).1 })]) ++
            rest')) := by
      rw [hshape2, setNodeArgs_split _ _ _ _ _ hiX2 hirest']
      simp [List.append_assoc]
    have hold : ∀ q : Nat × NodeData,
        (q ∈ d1 ∨ q = lpn ∨ q ∈ acc ∨ q ∈ procd ∨ q = (i, nd) ∨
          q ∈ rest') → q.1 < fresh := by
      intro q hq
      apply hfr q
      simp only [List.mem_append, List.mem_cons, or_assoc]
      tauto
    have hfr' : ∀ p ∈ d1 ++ lpn ::
        (((promoteArgs cnt fresh nd.args).2.1.reverse ++ acc) ++
          ((procd ++
            [(i, { nd with args := (promoteArgs cnt fresh nd.args).1 })]) ++
            rest')),
        p.1 < (promoteArgs cnt fresh nd.args).2.2.2 := by
      intro p hp
      have hfge : fresh ≤ (promoteArgs cnt fresh nd.args).2.2.2 := by
        have := hpaf.1
        omega
      simp only [List.mem_append, List.mem_cons, List.mem_reverse,
        List.mem_singleton, or_assoc] at hp
      rcases hp with h | h | h | h | h | h | h
      · exact lt_of_lt_of_le (hold p (by tauto)) hfge
      · exact lt_of_lt_of_le (hold p (by tauto)) hfge
      · exact (hpaf.2 p h).2
      · exact lt_of_lt_of_le (hold p (by tauto)) hfge
      · exact lt_of_lt_of_le (hold p (by tauto)) hfge
      · rw [h]
        exact lt_of_lt_of_le hile hfge
      · exact lt_of_lt_of_le (hold p (by tauto)) hfge
    have hrestlt : ∀ j ∈ rest'.map Prod.fst, j < fresh := by
      intro j hj
      obtain ⟨q, hq, hqj⟩ := List.mem_map.mp hj
      rw [← hqj]
      exact hold q (by tauto)
    have hdisj' : ∀ p ∈ d1 ++ lpn ::
        (((promoteArgs cnt fresh nd.args).2.1.reverse ++ acc) ++
          (procd ++
            [(i, { nd with args := (promoteArgs cnt fresh nd.args).1 })])),
        p.1 ∉ rest'.map Prod.fst := by
      intro p hp hpmem
      simp only [List.mem_append, List.mem_cons, List.mem_reverse,
        List.mem_singleton, List.not_mem_nil, or_false, or_assoc] at hp
      have hnotold : ∀ q : Nat × NodeData,
          (q ∈ d1 ∨ q = lpn ∨ q ∈ acc ∨ q ∈ procd) →
          q.1 ∉ rest'.map Prod.fst := by
        intro q hq hqm
        refine hdisj q ?_ ?_
        · simp only [List.mem_append, List.mem_cons, or_assoc]
          tauto
        · simp only [List.map_cons, List.mem_cons]
          exact Or.inr hqm
      rcases hp with h | h | h | h | h | h
      · exact hnotold p (by tauto) hpmem
      · exact hnotold p (by tauto) hpmem
      · have h1 := (hpaf.2 p h).1
        have h2 := hrestlt p.1 hpmem
        omega
      · exact hnotold p (by tauto) hpmem
      · exact hnotold p (by tauto) hpmem
      · rw [h] at hpmem
        exact hirest' hpmem
    have hnodup' : (rest'.map Prod.fst).Nodup := by
      have h := hnodup
      simp only [List.map_cons, List.nodup_cons] at h
      exact h.2
    have hnp' : ∀ p ∈ rest', ¬ p.2.op = Op.placeholder :=
      fun p hp => hnp p (List.mem_cons_of_mem _ hp)
    have hpn : promoteNodes cnt fresh ((i, nd) :: rest') =
        ((i, { nd with args := (promoteArgs cnt fresh nd.args).1 }) ::
          (promoteNodes (promoteArgs cnt fresh nd.args).2.2.1
            (promoteArgs cnt fresh nd.args).2.2.2 rest').1,
         (promoteArgs cnt fresh nd.args).2.1 ++
          (promoteNodes (promoteArgs cnt fresh nd.args).2.2.1
            (promoteArgs cnt fresh nd.args).2.2.2 rest').2.1,
         (promoteNodes (promoteArgs cnt fresh nd.args).2.2.1
            (promoteArgs cnt fresh nd.args).2.2.2 rest').2.2) := by
      simp [promoteNodes]
    simp only [List.map_cons, rlpLoop, hget, hop, if_false]
    rw [hpa]
    dsimp only
    rw [hset]
    have hih := ih ((promoteArgs cnt fresh nd.args).2.1.reverse ++ acc)
      (procd ++
        [(i, { nd with args := (promoteArgs cnt fresh nd.args).1 })])
      (promoteArgs cnt fresh nd.args).2.2.1
      (promoteArgs cnt fresh nd.args).2.2.2
      (leaves + (promoteArgs cnt fresh nd.args).2.1.length)
      hfr' hdisj' hnodup' hnp'
    rw [hih]
    rw [hpn]
    dsimp only
    simp only [List.reverse_append, List.append_assoc, List.cons_append,
      List.singleton_append, List.nil_append, List.length_append,
      Prod.mk.injEq, eq_self_iff_true, true_and]
    omega

/-- C6 (amended): literal-to-placeholder promotion. For every graph that
starts with a non-empty block of placeholders followed by non-placeholder
nodes (with distinct node ids), the pass replaces each literal argument of
each non-placeholder node, in node-then-argument traversal order, by a
reference to a freshly created placeholder; the created placeholders are
all inserted immediately after the LAST original placeholder, and because
each insertion is anchored at that same placeholder they end up in REVERSE
traversal order; the non-placeholder nodes keep their order with rewritten
argument lists, and the input spec gains one leaf slot per promoted
literal. (The spec's claim that the new placeholders appear in traversal
order is wrong; everything else is as stated.) -/
theorem claim_C6 (gm : GM) (phs rest : Graph)
    (hsplit : gm.graph = phs ++ rest)
    (hne : phs ≠ [])
    (hphs : ∀ p ∈ phs, p.2.op = Op.placeholder)
    (hrest : ∀ p ∈ rest, ¬ p.2.op = Op.placeholder)
    (hnodup : (gm.graph.map Prod.fst).Nodup) :
    _replace_literals_with_placeholders gm =
      ⟨phs ++
        ((promoteNodes phs.length (freshId gm.graph) rest).2.1.reverse ++
          (promoteNodes phs.length (freshId gm.graph) rest).1),
       gm.in_spec_leaves +
        (promoteNodes phs.length (freshId gm.graph) rest).2.1.length⟩ := by
  obtain ⟨g, leaves⟩ := gm
  dsimp only at hsplit hnodup ⊢
  subst hsplit
  have hget0 : ∀ p ∈ phs, getNode? (phs ++ rest) p.1 = some p.2 := by
    intro p hp
    exact getNode?_of_mem_nodup _ p.1 p.2
      (List.mem_append.mpr (Or.inl hp)) hnodup
  have hpre := rlpLoop_ph_prefix phs (rest.map Prod.fst) (phs ++ rest)
    Option.none 0 (freshId (phs ++ rest)) leaves hphs hget0
  have hfold : phs.foldl (fun _ p => some p.1) Option.none =
      some (phs.getLast hne).1 := by
    conv_lhs => rw [← List.dropLast_append_getLast hne]
    exact foldl_anchor_last _ _ _
  have hnsplit : (phs.map Prod.fst).Nodup ∧ (rest.map Prod.fst).Nodup ∧
      (phs.map Prod.fst).Disjoint (rest.map Prod.fst) := by
    rw [List.map_append] at hnodup
    exact ⟨hnodup.of_append_left, hnodup.of_append_right,
      List.disjoint_of_nodup_append hnodup⟩
  have hlp : (phs.getLast hne).1 ∉ (phs.dropLast).map Prod.fst := by
    intro hmem
    have h1 := hnsplit.1
    rw [← List.dropLast_append_getLast hne, List.map_append] at h1
    exact List.disjoint_of_nodup_append h1 hmem (by simp)
  have hfr0 : ∀ p ∈ phs.dropLast ++ (phs.getLast hne) ::
      (([] : Graph) ++ (([] : Graph) ++ rest)),
      p.1 < freshId (phs ++ rest) := by
    intro p hp
    apply lt_freshId_of_mem
    rw [← List.dropLast_append_getLast hne]
    simpa using hp
  have hdisj0 : ∀ p ∈ phs.dropLast ++ (phs.getLast hne) ::
      (([] : Graph) ++ ([] : Graph)),
      p.1 ∉ rest.map Prod.fst := by
    intro p hp hmem
    have hpphs : p ∈ phs := by
      rw [← List.dropLast_append_getLast hne]
      simpa using hp
    exact hnsplit.2.2 (List.mem_map.mpr ⟨p, hpphs, rfl⟩) hmem
  have hmain := rlpLoop_promote (phs.getLast hne) phs.dropLast hlp rest
    [] [] phs.length (freshId (phs ++ rest)) leaves hfr0 hdisj0
    hnsplit.2.1 hrest
  have hshape : phs.dropLast ++ (phs.getLast hne) ::
      (([] : Graph) ++ (([] : Graph) ++ rest)) = phs ++ rest := by
    conv_rhs => rw [← List.dropLast_append_getLast hne]
    simp
  rw [hshape] at hmain
  have hrhs : ∀ A B : Graph, phs.dropLast ++ (phs.getLast hne) ::
      ((A ++ ([] : Graph)) ++ (([] : Graph) ++ B)) = phs ++ (A ++ B) := by
    intro A B
    conv_rhs => rw [← List.dropLast_append_getLast hne]
    simp
  rw [hrhs] at hmain
  unfold _replace_literals_with_placeholders
  dsimp only
  have hfn : (phs ++ rest).map (fun p => p.1) =
      phs.map Prod.fst ++ rest.map Prod.fst := by
    rw [List.map_append]
  rw [hfn, hpre, hfold, Nat.zero_add, hmain]

/-- Witness for C6: on the spec's own example (one placeholder `x`, one
operation with the literal arguments `3` and `(1, 2)` in that order), the
theorem yields the promoted module, whose two created placeholders sit
after `x` in reverse traversal order and whose leaf count grew by 2. -/
theorem claim_C6_witness :
    _replace_literals_with_placeholders litGM = litGMPromoted := by
  have h := claim_C6 litGM
    [(0, ⟨.placeholder, .attr "x", [], []⟩)]
    [(1, ⟨.call_function, .opOther "add" false,
         [.node 0, .num 3, .tuple [.num 1, .num 2]], []⟩),
     (2, ⟨.output, .attr "output", [.node 1], []⟩)]
    (by decide) (by decide) (by decide) (by decide) (by decide)
  exact h.trans (by decide)

end PT2E
